import Mathlib

/-!
Verification of the grammar-mining core of the `fuzzingbook` GrammarMiner
notebook (`src/notebooks/GrammarMiner.ipynb`).

Strings are embedded as `List Char`.  Python dictionaries are embedded as
association lists (`List (key × value)`) in insertion order, which is the
iteration order of Python 3.7+ dictionaries.  Python's `str.replace`
(replace all non-overlapping occurrences, leftmost first) and substring
test (`in`) are embedded from scratch below so that every lemma about them
is proved in this file.
-/

namespace GrammarMiner

/-- Character strings of the Python program, embedded as lists of characters. -/
abbrev Str := List Char

/-- `leadsWith p s` is true when `p` is a prefix of `s`
(the test Python's `str.replace` performs at each scan position). -/
def leadsWith {α : Type} [DecidableEq α] : List α → List α → Bool
  | [], _ => true
  | _ :: _, [] => false
  | a :: as, b :: bs => decide (a = b) && leadsWith as bs

theorem leadsWith_iff {α : Type} [DecidableEq α] : ∀ p s : List α, leadsWith p s = true ↔ p <+: s
  | [], s => by simp [leadsWith]
  | _ :: _, [] => by simp [leadsWith]
  | a :: as, b :: bs => by
    simp only [leadsWith, Bool.and_eq_true, decide_eq_true_eq, List.cons_prefix_cons]
    exact and_congr Iff.rfl (leadsWith_iff as bs)

/-- `containsSub pat s` embeds Python's substring test `pat in s`. -/
def containsSub {α : Type} [DecidableEq α] (pat : List α) : List α → Bool
  | [] => pat.isEmpty
  | c :: s => leadsWith pat (c :: s) || containsSub pat s

theorem containsSub_iff {α : Type} [DecidableEq α] :
    ∀ (pat s : List α), containsSub pat s = true ↔ pat <:+: s
  | pat, [] => by
    simp only [containsSub, List.isEmpty_iff, List.infix_nil]
  | pat, c :: s => by
    simp only [containsSub, Bool.or_eq_true, leadsWith_iff, containsSub_iff pat s,
      List.infix_cons_iff]

/-- Structural worker for `replaceScan`: while the skip counter is positive
the characters of an already-matched occurrence are consumed silently;
at zero the next scan position is examined. -/
def replaceGo (pat sub : Str) : Nat → Str → Str
  | _, [] => []
  | skip + 1, _ :: s => replaceGo pat sub skip s
  | 0, c :: s =>
    if pat.isEmpty then
      sub ++ c :: replaceGo pat sub 0 s
    else if leadsWith pat (c :: s) then
      sub ++ replaceGo pat sub (pat.length - 1) s
    else
      c :: replaceGo pat sub 0 s

/-- One scan of Python's `str.replace` for a non-empty pattern: at each
position, if `pat` is a prefix, emit `sub` and skip `pat.length` characters,
else keep the character.  (For an empty pattern this code inserts `sub`
before every character; the trailing insertion Python also performs is added
by `pyReplace`.) -/
def replaceScan (pat sub s : Str) : Str := replaceGo pat sub 0 s

/-- Embedding of Python's `s.replace(pat, sub)` (all non-overlapping
occurrences, leftmost first; for an empty pattern, `sub` is inserted at
every position, including the end). -/
def pyReplace (pat sub s : Str) : Str :=
  if pat.isEmpty then replaceScan pat sub s ++ sub else replaceScan pat sub s

/-- A value bound to a local variable during tracing: a string, or any
non-string Python value (whose identity is irrelevant to the miner). -/
inductive PyVal
  | str (s : Str)
  | other
deriving DecidableEq

/-- `tracer.the_values`: the observation dictionary mapping variable names to
observed string values, in insertion order. -/
abbrev Traces := List (Str × Str)

/-- A grammar: a dictionary from nonterminal symbols to lists of alternatives,
in insertion order. -/
abbrev Grammar := List (Str × List Str)

/-- Modelled from the spec: `START_SYMBOL` is imported from the `Grammars`
module, which is not part of the sources; it is the spec's "distinguished
start symbol", conventionally the token `<start>`. -/
def START_SYMBOL : Str := "<start>".toList

/-- `var.lower()`. -/
def lowerStr (v : Str) : Str := v.map Char.toLower

/-- `nonterminal(var)`: the variable name lowercased and wrapped in angle
brackets. -/
def nonterminal (var : Str) : Str := '<' :: (lowerStr var ++ ['>'])

/-- `d[k] = v` on a Python dict: overwrite in place if the key is present,
otherwise append the new binding. -/
def pyDictInsert {β : Type} (d : List (Str × β)) (k : Str) (v : β) : List (Str × β) :=
  if k ∈ d.map Prod.fst then d.map (fun e => if e.1 = k then (k, v) else e)
  else d ++ [(k, v)]

/-- `del d[k]` on a Python dict: `none` models the `KeyError` raised when the
key is absent. -/
def pyDictDelete {β : Type} (d : List (Str × β)) (k : Str) : Option (List (Str × β)) :=
  if k ∈ d.map Prod.fst then some (d.filter (fun e => decide (e.1 ≠ k))) else none

/-- `d.get(k)` / `d[k]` lookup on a Python dict. -/
def pyLookup {β : Type} (d : List (Str × β)) (k : Str) : Option β :=
  match d with
  | [] => none
  | e :: rest => if e.1 = k then some e.2 else pyLookup rest k

/-- The inner alternative loop of the simple `get_grammar`: for each
alternative `repl` (in place, preserving positions), if `value` occurs in it,
replace every occurrence by the nonterminal `ntk`; the second component
counts how many alternatives matched (one `new_rules` entry is appended per
matching alternative). -/
def scanAlts (value ntk : Str) : List Str → List Str × Nat
  | [] => ([], 0)
  | repl :: rest =>
    let r := scanAlts value ntk rest
    if containsSub value repl then (pyReplace value ntk repl :: r.1, r.2 + 1)
    else (repl :: r.1, r.2)

/-- The middle loop of the simple `get_grammar`: scan every entry of the
grammar for `value`, replacing occurrences by `ntk` in place. -/
def scanGrammar (value ntk : Str) : Grammar → Grammar × Nat
  | [] => ([], 0)
  | (k, alts) :: rest =>
    let a := scanAlts value ntk alts
    let r := scanGrammar value ntk rest
    ((k, a.1) :: r.1, a.2 + r.2)

/-- The outer observation loop of one `while` iteration of the simple
`get_grammar`: process the traced observations in dictionary order against
the (in-place updated) grammar, accumulating the `new_rules` list of
`(var, alt_key, value)` entries in append order. -/
def scanTraces : Traces → Grammar → Grammar × List (Str × Str × Str)
  | [], g => (g, [])
  | (var, value) :: rest, g =>
    let ntk := nonterminal var
    let s := scanGrammar value ntk g
    let r := scanTraces rest s.1
    (r.1, List.replicate s.2 (var, ntk, value) ++ r.2)

/-- Exceptions the synthesizer can raise: the `KeyError` from
`del traces[var]`, and an out-of-fuel marker for the embedding's loop counter
(proved unreachable for the fuel `get_grammar` supplies). -/
inductive PyErr
  | keyError
  | outOfFuel
deriving DecidableEq

deriving instance DecidableEq for Except

/-- The rule-adding loop of the simple `get_grammar`: for every `new_rules`
entry, add `grammar[alt_key] = [value]` and run `del traces[var]`; deleting a
variable twice (the same variable matched in two alternatives in one pass)
raises `KeyError`. -/
def applyNewRules : List (Str × Str × Str) → Grammar → Traces → Except PyErr (Grammar × Traces)
  | [], g, tr => .ok (g, tr)
  | (var, ntk, value) :: rest, g, tr =>
    let g' := pyDictInsert g ntk [value]
    match pyDictDelete tr var with
    | none => .error .keyError
    | some tr' => applyNewRules rest g' tr'

/-- The `while True` loop of the simple `get_grammar`.  The fuel argument is
the embedding's termination device: each successful iteration with a
non-empty `new_rules` list strictly shrinks the trace dictionary, so the fuel
passed by `get_grammar` is never exhausted. -/
def ggLoop : Nat → Traces → Grammar → Except PyErr (Grammar × Traces)
  | 0, _, _ => .error .outOfFuel
  | fuel + 1, tr, g =>
    let s := scanTraces tr g
    if s.2.isEmpty then .ok (s.1, tr)
    else
      match applyNewRules s.2 s.1 tr with
      | .error e => .error e
      | .ok (g2, tr2) => ggLoop fuel tr2 g2

/-- The simple-variant `get_grammar`: start from the grammar mapping the
start symbol to the single alternative `inputstr` and run the replacement
loop.  The result also exposes the final state of the (mutated) trace
dictionary `tracer.the_values`. -/
def get_grammar (traces : Traces) (inputstr : Str) : Except PyErr (Grammar × Traces) :=
  ggLoop (traces.length + 1) traces [(START_SYMBOL, [inputstr])]

/-- Expansion of a string down to terminal symbols: replace each nonterminal
reference by its sole defining alternative, processing the grammar's rules in
their insertion order (the start symbol has no occurrences inside
alternatives and is skipped). -/
def expandGrammar (g : Grammar) (a : Str) : Str :=
  g.foldl (fun acc e => if e.1 = START_SYMBOL then acc else pyReplace e.1 (e.2.headD []) acc) a

/-- First-occurrence deduplication relative to an already-seen list.
`firstDedupFrom [] l` is the canonical duplicate-free representative this
embedding uses for the (order-unspecified) iteration of a Python `set`
built from `l`; every theorem below depends only on its membership and
duplicate-freeness, never on the chosen order. -/
def firstDedupFrom (seen : List Str) : List Str → List Str
  | [] => []
  | k :: ks => if k ∈ seen then firstDedupFrom seen ks else k :: firstDedupFrom (k :: seen) ks

/-- `list(set(a) | set(b))`: the union of two alternative lists with
duplicates collapsed (order canonicalised to first occurrence, see
`firstDedupFrom`). -/
def pySetUnion (a b : List Str) : List Str := firstDedupFrom [] (a ++ b)

/-- `g.get(key, [])`. -/
def pyGet (g : Grammar) (k : Str) : List Str := (pyLookup g k).getD []

/-- `merge_grammars(g1, g2)`: for every key of `g1` followed by every key of
`g2`, bind the key to the union of both grammars' alternatives for it. -/
def merge_grammars (g1 g2 : Grammar) : Grammar :=
  (g1.map Prod.fst ++ g2.map Prod.fst).foldl
    (fun m k => pyDictInsert m k (pySetUnion (pyGet g1 k) (pyGet g2 k))) []

/-- A Python frame as the tracers consult it: the code object's name, the
class name that a `__new__` frame resolves via its first argument, and the
local bindings in definition order. -/
structure Frame where
  co_name : Str
  new_class : Str
  f_locals : List (Str × PyVal)

/-- The filter of the simple `Tracer.traceit`: keep the local string
variables of length more than 2 that occur in the traced input string. -/
def traceit_filter (inputstr : Str) (locals : List (Str × PyVal)) : List (Str × Str) :=
  locals.filterMap (fun e =>
    match e.2 with
    | .str s => if 2 < s.length ∧ containsSub s inputstr = true then some (e.1, s) else none
    | .other => none)

/-- `d.update(new)` on Python dicts. -/
def pyDictUpdate {β : Type} (d new : List (Str × β)) : List (Str × β) :=
  new.foldl (fun m e => pyDictInsert m e.1 e.2) d

/-- One `traceit` event of the simple `Tracer`: record the qualifying locals
into `the_values`. -/
def Tracer.traceitStep (inputstr : Str) (the_values : Traces) (locals : List (Str × PyVal)) : Traces :=
  pyDictUpdate the_values (traceit_filter inputstr locals)

/-- The `InputStack` of the stack-scoped miner.  The head of `inputs` models
the top of the Python list (its last element, `inputs[-1]`). -/
structure InputStack where
  inputs : List (List (Str × Str))
deriving DecidableEq

/-- The string-valued subset of a parameter dictionary. -/
def strLocals (params : List (Str × PyVal)) : List (Str × Str) :=
  params.filterMap (fun e =>
    match e.2 with
    | .str s => some (e.1, s)
    | .other => none)

/-- `InputStack.has`: is `val` a substring of some value in the top frame?
`none` models the `IndexError` Python raises on `inputs[-1]` when the stack
is empty. -/
def InputStack.has (st : InputStack) (val : Str) : Option Bool :=
  match st.inputs with
  | [] => none
  | top :: _ => some (top.any (fun e => containsSub val e.2))

/-- `InputStack.push`: the outermost call pushes all its string parameters;
a nested call pushes only those string parameters contained in some value
active in the enclosing frame. -/
def InputStack.push (st : InputStack) (params : List (Str × PyVal)) : InputStack :=
  match st.inputs with
  | [] => ⟨[strLocals params]⟩
  | top :: rest => ⟨(strLocals params).filter (fun e => top.any (fun f => containsSub e.2 f.2)) :: top :: rest⟩

/-- `InputStack.pop`: discard and return the top frame; `none` models the
`IndexError` on an empty stack. -/
def InputStack.pop (st : InputStack) : Option (List (Str × Str) × InputStack) :=
  match st.inputs with
  | [] => none
  | top :: rest => some (top, ⟨rest⟩)

/-- The `Vars` record of the stack-scoped miner (the `istack` the Python
object holds is passed to `update_vars` explicitly in this embedding). -/
structure Vars where
  defs : List (Str × Str)
deriving DecidableEq

/-- `Vars.__init__`: the definitions dictionary starts with the start symbol
bound to the input. -/
def Vars.init (i : Str) : Vars := ⟨[(START_SYMBOL, i)]⟩

/-- `Vars.varname`: qualify a variable by its frame's function name (or, in
a `__new__` frame, by the class under construction) when namespacing is on. -/
def Vars.varname (namespaced : Bool) (var : Str) (frame : Frame) : Str :=
  if namespaced = false then var
  else
    let class_name := if frame.co_name = ("__new__".toList) then frame.new_class else frame.co_name
    class_name ++ ':' :: var

/-- Python truthiness of an optional string (`self.defs.get(q)`):
a missing key and an empty string are falsy. -/
def pyTruthy : Option Str → Bool
  | none => false
  | some s => !s.isEmpty

/-- `Vars.update_vars`: record a string value of length at least 2 that the
input stack knows, under its qualified name, unless a truthy value is
already recorded for that name.  `none` models the `IndexError` `has`
raises on an empty stack. -/
def Vars.update_vars (namespaced : Bool) (istack : InputStack) (var : Str) (value : PyVal)
    (frame : Frame) (v : Vars) : Option Vars :=
  match value with
  | .other => some v
  | .str s =>
    if 2 ≤ s.length then
      match istack.has s with
      | none => none
      | some b =>
        if b then
          let q := Vars.varname namespaced var frame
          if pyTruthy (pyLookup v.defs q) then some v
          else some ⟨pyDictInsert v.defs q s⟩
        else some v
    else some v

/-- The joint state of a `StackTracer`: its input stack and its `Vars`. -/
structure StackTracerState where
  istack : InputStack
  vars : Vars
deriving DecidableEq

/-- A `traceit` event of the stack tracer: a call (carrying the parameter
dictionary `my_parameters`), a return, an exception, or an ordinary line
event carrying the frame's locals. -/
inductive Event
  | call (params : List (Str × PyVal))
  | ret
  | exception
  | line (locals : List (Str × PyVal))

/-- Run `update_vars` over a dictionary of bindings in order. -/
def updateVarsAll (namespaced : Bool) (istack : InputStack) (frame : Frame)
    (items : List (Str × PyVal)) (v : Vars) : Option Vars :=
  items.foldlM (fun acc e => Vars.update_vars namespaced istack e.1 e.2 frame acc) v

/-- One event of `StackTracer.traceit`.  `fn_is_traced` models the
`fn.endswith('urllib/parse.py')` filename filter; a call pushes the
parameters onto the input stack and records them, a return pops the top
frame, an exception is ignored, and a line event records the locals. -/
def StackTracer.traceitStep (namespaced : Bool) (fn_is_traced : Bool) (frame : Frame)
    (ev : Event) (st : StackTracerState) : Option StackTracerState :=
  if fn_is_traced = false then some st
  else
    match ev with
    | .call params =>
      let ist := st.istack.push params
      match updateVarsAll namespaced ist frame params st.vars with
      | none => none
      | some v => some ⟨ist, v⟩
    | .ret =>
      match st.istack.pop with
      | none => none
      | some r => some ⟨r.2, st.vars⟩
    | .exception => some st
    | .line locals =>
      match updateVarsAll namespaced st.istack frame locals st.vars with
      | none => none
      | some v => some ⟨st.istack, v⟩

/-- A tainted string (`tstr`): a string carrying an object identity and a
back-reference to the parent instance it was sliced from (`none` when the
parent is not a `tstr`). -/
inductive TStr where
  | mk (oid : Nat) (chars : Str) (parent : Option TStr)

/-- The object identity of a `tstr` (Python's `id`). -/
def TStr.oid : TStr → Nat
  | .mk oid _ _ => oid

/-- The character content of a `tstr`. -/
def TStr.chars : TStr → Str
  | .mk _ chars _ => chars

/-- `is_from(var1, var2)` of `TaintedInputStack.has`: walk the parent chain
of `var1` and compare object identities with `var2`. -/
def TStr.isFrom : TStr → TStr → Bool
  | .mk oid _ parent, var2 =>
    oid == var2.oid ||
      match parent with
      | none => false
      | some p => TStr.isFrom p var2

/-- The `TaintedInputStack`: frames hold tainted strings, and membership is
tested by origin-chain identity instead of textual containment. -/
structure TaintedInputStack where
  inputs : List (List (Str × TStr))

/-- `TaintedInputStack.has`; `none` models the `IndexError` on an empty
stack. -/
def TaintedInputStack.has (st : TaintedInputStack) (val : TStr) : Option Bool :=
  match st.inputs with
  | [] => none
  | top :: _ => some (top.any (fun e => TStr.isFrom val e.2))

/-- A local value as `TaintedVars.update_vars` sees it: a `tstr` or anything
else. -/
inductive TVal
  | t (ts : TStr)
  | nont

/-- `TaintedVars.update_vars`: as `Vars.update_vars`, but only `tstr` values
qualify and membership is taint-based.  The recorded definition is the
string content of the `tstr`. -/
def TaintedVars.update_vars (namespaced : Bool) (istack : TaintedInputStack) (var : Str)
    (value : TVal) (frame : Frame) (v : Vars) : Option Vars :=
  match value with
  | .nont => some v
  | .t ts =>
    if 2 ≤ ts.chars.length then
      match istack.has ts with
      | none => none
      | some b =>
        if b then
          let q := Vars.varname namespaced var frame
          if pyTruthy (pyLookup v.defs q) then some v
          else some ⟨pyDictInsert v.defs q ts.chars⟩
        else some v
    else some v

/-- The result of a Python `with` statement around a single call: the body
returned a value, raised an exception that `__exit__` let propagate, or
raised one that `__exit__` suppressed by returning a truthy value. -/
inductive WithResult (ε α : Type)
  | normal (a : α)
  | raised (e : ε)
  | suppressed
deriving DecidableEq

/-- `Tracer.__enter__`: save `sys.gettrace()` and install this tracer's
hook.  The state is the process-wide trace hook slot; hooks are abstracted
by an identifier. -/
def Tracer.enter (myHook : Nat) (st : Option Nat) : Option Nat × Option Nat :=
  (some myHook, st)

/-- `Tracer.__exit__`: restore the saved hook.  The method body ends without
a `return`, so it returns `None` — falsy, hence it never asks for the
exception to be suppressed. -/
def Tracer.exitFn (saved : Option Nat) (_st : Option Nat) : Option Nat × Bool :=
  (saved, false)

/-- The semantics of `with ctx: body` for a context manager given by
`enter` and `exitFn`: `enter` runs first, the body runs to a result or an
exception, and `exitFn` always runs afterwards; a raised exception is
suppressed exactly when `exitFn` returns a truthy value. -/
def pyWith {ε α St Saved : Type} (enter : St → St × Saved) (exitFn : Saved → St → St × Bool)
    (body : St → Except ε α × St) (st0 : St) : WithResult ε α × St :=
  let e1 := enter st0
  let b := body e1.1
  let x := exitFn e1.2 b.2
  match b.1 with
  | .ok a => (.normal a, x.1)
  | .error e => (if x.2 then .suppressed else .raised e, x.1)

/-- `with Tracer(inputstr) as tracer: target(...)`, for a body that may read
and even overwrite the hook slot. -/
def traceWith {ε α : Type} (myHook : Nat) (body : Option Nat → Except ε α × Option Nat)
    (st0 : Option Nat) : WithResult ε α × Option Nat :=
  pyWith (Tracer.enter myHook) Tracer.exitFn body st0

/-- A bracket-free string: one that mentions neither `<` nor `>`.  Samples
and observed values drawn from them are bracket-free exactly when the sample
is. -/
def bracketFree (s : Str) : Prop := '<' ∉ s ∧ '>' ∉ s

instance (s : Str) : Decidable (bracketFree s) :=
  inferInstanceAs (Decidable (_ ∧ _))

/-- The symbolic view of an alternative produced by the synthesizer: a
sequence of terminal characters and intact nonterminal tokens. -/
inductive GSym where
  | chr (c : Char)
  | tok (n : Str)
deriving DecidableEq

/-- Render a symbol back to the character string the synthesizer works on:
a token named `n` renders as `<n>`. -/
def reprSym : GSym → Str
  | .chr c => [c]
  | .tok n => '<' :: (n ++ ['>'])

/-- Render a symbolic alternative to its character string. -/
def reprL : List GSym → Str
  | [] => []
  | s :: l => reprSym s ++ reprL l

/-- Fully expand one symbol under a valuation assigning terminal strings to
token names. -/
def flatSym (V : Str → Str) : GSym → Str
  | .chr c => [c]
  | .tok n => V n

/-- Fully expand a symbolic alternative under a valuation. -/
def flatL (V : Str → Str) : List GSym → Str
  | [] => []
  | s :: l => flatSym V s ++ flatL V l

/-- The token names occurring in a symbolic alternative. -/
def toks : List GSym → List Str
  | [] => []
  | .chr _ :: l => toks l
  | .tok n :: l => n :: toks l

/-- Every terminal character of a symbolic alternative is bracket-free. -/
def chrsFree (l : List GSym) : Prop := ∀ c, GSym.chr c ∈ l → c ≠ '<' ∧ c ≠ '>'

/-- Structural worker for `symReplace`, with the same skip-counter scheme
as `replaceGo`. -/
def symReplaceGo (v : Str) (w : Str) : Nat → List GSym → List GSym
  | _, [] => []
  | skip + 1, _ :: l => symReplaceGo v w skip l
  | 0, s :: l =>
    if v.isEmpty = false ∧ leadsWith (v.map GSym.chr) (s :: l) = true then
      GSym.tok w :: symReplaceGo v w (v.length - 1) l
    else
      s :: symReplaceGo v w 0 l

/-- Symbol-level counterpart of one `str.replace(value, alt_key)` scan: a
maximal-munch pass replacing every run of terminal characters spelling `v`
by the token `w`. -/
def symReplace (v : Str) (w : Str) (l : List GSym) : List GSym := symReplaceGo v w 0 l

/-- Symbol-level replacement of every occurrence of the token named `n` by a
symbolic alternative `rep` (the expansion of one grammar rule). -/
def substTok (n : Str) (rep : List GSym) : List GSym → List GSym
  | [] => []
  | .tok m :: l => if m = n then rep ++ substTok n rep l else .tok m :: substTok n rep l
  | .chr c :: l => .chr c :: substTok n rep l

/-- The key of the rule introduced for a (lowercased) variable name. -/
def ruleKey (n : Str) : Str := '<' :: (n ++ ['>'])

/-- The ghost symbolic view of one synthesized rule: the lowercased variable
name and the symbolic form of the rule's single alternative. -/
structure RuleSpec where
  name : Str
  sym : List GSym

/-- Render a list of rule specifications back to grammar entries. -/
def rulesToGrammar (rs : List RuleSpec) : Grammar :=
  rs.map (fun r => (ruleKey r.name, [reprL r.sym]))

/-- The `new_rules` list produced by one pass: one `(var, alt_key, value)`
entry per matching alternative, grouped per observation in dictionary
order. -/
def joinReplicate : Traces → List Nat → List (Str × Str × Str)
  | [], _ => []
  | _, [] => []
  | p :: ps, c :: cs => List.replicate c (p.1, nonterminal p.1, p.2) ++ joinReplicate ps cs

/-- The observations of a pass that matched at least one alternative, in
dictionary order. -/
def matchedOf : Traces → List Nat → Traces
  | [], _ => []
  | _, [] => []
  | p :: ps, c :: cs => if c = 0 then matchedOf ps cs else p :: matchedOf ps cs

/-- The valuation induced by the processed observations: a token name (a
lowercased variable) is valued at the raw observed value it was introduced
for. -/
def mkV (procd : Traces) : Str → Str :=
  fun n => (pyLookup (procd.map fun p => (lowerStr p.1, p.2)) n).getD []

/-- Well-formedness of a ghost rule list under a valuation: names are
bracket-free and distinct from the start symbol, alternatives are families
of intact tokens over bracket-free terminals, each alternative expands to
its rule's defining value, and tokens refer only to later rules. -/
def specOK (V : Str → Str) : List RuleSpec → Prop
  | [] => True
  | r :: rs =>
    bracketFree r.name ∧ chrsFree r.sym ∧ flatL V r.sym = V r.name ∧
      (∀ m ∈ toks r.sym, m ∈ rs.map RuleSpec.name) ∧ ruleKey r.name ≠ START_SYMBOL ∧
      specOK V rs

/-- The conditions under which the synthesized grammar provably
reconstructs the sample: the sample is bracket-free, every traced value is
non-empty and bracket-free, lowercased variable names are bracket-free,
pairwise distinct and distinct from the start symbol, and no value occurs
inside a lowercased variable name. -/
def TracesWF (T : Traces) (S : Str) : Prop :=
  bracketFree S ∧
  (∀ p ∈ T, p.2 ≠ [] ∧ bracketFree p.2) ∧
  (∀ p ∈ T, bracketFree (lowerStr p.1) ∧ nonterminal p.1 ≠ START_SYMBOL) ∧
  (T.map fun p => lowerStr p.1).Nodup ∧
  (∀ p ∈ T, ∀ q ∈ T, ¬ p.2 <:+: lowerStr q.1)

instance (T : Traces) (S : Str) : Decidable (TracesWF T S) :=
  inferInstanceAs (Decidable (_ ∧ _ ∧ _ ∧ _ ∧ _))

/-- The loop invariant of the simple `get_grammar`: the grammar consists of
the start entry followed by one rule per processed observation, every
alternative is the rendering of a well-formed symbolic alternative, the
start alternative expands to the sample, and the remaining trace dictionary
is exactly the unprocessed part of the original one. -/
def GInv (T : Traces) (S : Str) (g : Grammar) (tr : Traces) : Prop :=
  ∃ (s0 : List GSym) (rs : List RuleSpec) (procd : Traces),
    g = (START_SYMBOL, [reprL s0]) :: rulesToGrammar rs ∧
    specOK (mkV T) rs ∧
    chrsFree s0 ∧
    flatL (mkV T) s0 = S ∧
    (∀ m ∈ toks s0, m ∈ rs.map RuleSpec.name) ∧
    rs.map RuleSpec.name = procd.map (fun p => lowerStr p.1) ∧
    (∀ p ∈ procd, p ∈ T) ∧
    tr = T.filter (fun p => decide (p.1 ∉ procd.map Prod.fst))

/-- How one scanning pass transforms a ghost rule: the name is kept, the
alternative stays a family of intact tokens over bracket-free terminals with
the same expansion, and any token not present before names one of the
observations matched during the pass (collected in `M`). -/
def ruleRel (Vf : Str → Str) (M : List Str) (r r' : RuleSpec) : Prop :=
  r'.name = r.name ∧ chrsFree r'.sym ∧ flatL Vf r'.sym = flatL Vf r.sym ∧
    ∀ m ∈ toks r'.sym, m ∈ toks r.sym ∨ m ∈ M

/-- One observation event delivered to `update_vars` during a trace,
carrying the input-stack state active at that moment. -/
structure Obs where
  istack : InputStack
  var : Str
  value : PyVal
  frame : Frame

/-- Run `Vars.update_vars` over a list of observation events in trace
order. -/
def runObs (namespaced : Bool) (obs : List Obs) (v : Vars) : Option Vars :=
  obs.foldlM (fun acc o => Vars.update_vars namespaced o.istack o.var o.value o.frame acc) v

/-- Does an observation qualify for the qualified name `q`: a string value
of length at least 2 that the observation's input stack knows, whose
qualified variable name is `q`. -/
def obsQualifies (namespaced : Bool) (q : Str) (o : Obs) : Bool :=
  match o.value with
  | .str s =>
    decide (Vars.varname namespaced o.var o.frame = q) && decide (2 ≤ s.length) &&
      decide (o.istack.has s = some true)
  | .other => false

/-- The value of the first observation qualifying for `q` in a trace. -/
def firstQualVal (namespaced : Bool) (q : Str) (obs : List Obs) : Option Str :=
  match obs.find? (obsQualifies namespaced q) with
  | none => none
  | some o =>
    match o.value with
    | .str s => some s
    | .other => none

/-! ## Dictionary and deduplication lemmas -/

theorem pyLookup_eq_none {β : Type} :
    ∀ (d : List (Str × β)) (k : Str), pyLookup d k = none ↔ k ∉ d.map Prod.fst
  | [], k => by simp [pyLookup]
  | e :: d, k => by
    obtain ⟨k0, v0⟩ := e
    rw [List.map_cons, pyLookup]
    by_cases h : k0 = k
    · subst h
      rw [if_pos rfl]
      constructor
      · intro hc
        exact (Option.some_ne_none v0 hc).elim
      · intro hk
        exact (hk (List.mem_cons_self _ _)).elim
    · rw [if_neg h, pyLookup_eq_none d k]
      constructor
      · intro hk hmem
        rcases List.mem_cons.mp hmem with he | hd
        · exact h he.symm
        · exact hk hd
      · intro hk hd
        exact hk (List.mem_cons_of_mem _ hd)

theorem mem_firstDedupFrom :
    ∀ (l seen : List Str) (x : Str), x ∈ firstDedupFrom seen l ↔ x ∈ l ∧ x ∉ seen
  | [], seen, x => by simp [firstDedupFrom]
  | k :: ks, seen, x => by
    by_cases h : k ∈ seen
    · rw [firstDedupFrom, if_pos h, mem_firstDedupFrom ks seen x, List.mem_cons]
      by_cases hk : x = k
      · subst hk; tauto
      · tauto
    · rw [firstDedupFrom, if_neg h]
      simp only [List.mem_cons, mem_firstDedupFrom ks (k :: seen) x]
      by_cases hk : x = k
      · subst hk; tauto
      · tauto

theorem nodup_firstDedupFrom : ∀ (l seen : List Str), (firstDedupFrom seen l).Nodup
  | [], _ => List.nodup_nil
  | k :: ks, seen => by
    by_cases h : k ∈ seen
    · rw [firstDedupFrom, if_pos h]
      exact nodup_firstDedupFrom ks seen
    · rw [firstDedupFrom, if_neg h]
      refine List.nodup_cons.mpr ⟨fun hk => ?_, nodup_firstDedupFrom ks (k :: seen)⟩
      exact ((mem_firstDedupFrom ks (k :: seen) k).mp hk).2 (List.mem_cons_self k seen)

theorem firstDedupFrom_congr :
    ∀ (l : List Str) {seen1 seen2 : List Str}, (∀ x, x ∈ seen1 ↔ x ∈ seen2) →
      firstDedupFrom seen1 l = firstDedupFrom seen2 l
  | [], _, _, _ => rfl
  | k :: ks, seen1, seen2, h => by
    by_cases hk : k ∈ seen1
    · rw [firstDedupFrom, if_pos hk, firstDedupFrom, if_pos ((h k).mp hk)]
      exact firstDedupFrom_congr ks h
    · rw [firstDedupFrom, if_neg hk, firstDedupFrom, if_neg (fun hx => hk ((h k).mpr hx))]
      refine congrArg _ (firstDedupFrom_congr ks fun x => ?_)
      simp only [List.mem_cons]
      exact or_congr Iff.rfl (h x)

theorem firstDedupFrom_of_sub :
    ∀ (l seen : List Str), (∀ x ∈ l, x ∈ seen) → firstDedupFrom seen l = []
  | [], _, _ => rfl
  | k :: ks, seen, h => by
    rw [firstDedupFrom, if_pos (h k (List.mem_cons_self k ks))]
    exact firstDedupFrom_of_sub ks seen fun x hx => h x (List.mem_cons_of_mem _ hx)

theorem firstDedupFrom_append_self :
    ∀ (a : List Str) (seen b : List Str), a.Nodup → (∀ x ∈ a, x ∉ seen) →
      (∀ x ∈ b, x ∈ a ∨ x ∈ seen) → firstDedupFrom seen (a ++ b) = a
  | [], seen, b, _, _, hb => by
    rw [List.nil_append]
    exact firstDedupFrom_of_sub b seen fun x hx => ((hb x hx).resolve_left (by simp))
  | k :: ks, seen, b, hnd, ha, hb => by
    rw [List.cons_append, firstDedupFrom, if_neg (ha k (List.mem_cons_self k ks))]
    refine congrArg _ (firstDedupFrom_append_self ks (k :: seen) b
      (List.nodup_cons.mp hnd).2 ?_ ?_)
    · intro x hx hmem
      rcases List.mem_cons.mp hmem with rfl | hs
      · exact (List.nodup_cons.mp hnd).1 hx
      · exact ha x (List.mem_cons_of_mem _ hx) hs
    · intro x hx
      rcases hb x hx with hxa | hxs
      · rcases List.mem_cons.mp hxa with rfl | hxa
        · exact Or.inr (List.mem_cons_self x seen)
        · exact Or.inl hxa
      · exact Or.inr (List.mem_cons_of_mem _ hxs)

theorem map_fst_map_fn {β : Type} (f : Str → β) (L : List Str) :
    (L.map fun k => (k, f k)).map Prod.fst = L := by
  induction L with
  | nil => rfl
  | cons a l ih => simp only [List.map_cons, ih]

theorem pyLookup_map_fn {β : Type} (f : Str → β) :
    ∀ (L : List Str) (k : Str), k ∈ L →
      pyLookup (L.map fun x => (x, f x)) k = some (f k)
  | [], k, h => absurd h (List.not_mem_nil k)
  | k0 :: L, k, h => by
    by_cases hk : k0 = k
    · subst hk
      simp [pyLookup]
    · rw [List.map_cons, pyLookup, if_neg hk]
      exact pyLookup_map_fn f L k ((List.mem_cons.mp h).resolve_left (fun he => hk he.symm))

theorem foldl_pyDictInsert {β : Type} (f : Str → β) :
    ∀ (ks L : List Str), L.Nodup →
      ks.foldl (fun m k => pyDictInsert m k (f k)) (L.map fun k => (k, f k)) =
        (L ++ firstDedupFrom L ks).map (fun k => (k, f k))
  | [], L, _ => by simp [firstDedupFrom]
  | k :: ks, L, hnd => by
    rw [List.foldl_cons]
    by_cases hk : k ∈ L
    · have hins : pyDictInsert (L.map fun x => (x, f x)) k (f k) = L.map fun x => (x, f x) := by
        rw [pyDictInsert, if_pos (by rw [map_fst_map_fn]; exact hk), List.map_map]
        refine List.map_congr_left fun x _ => ?_
        by_cases hx : x = k
        · subst hx; simp
        · simp [hx]
      rw [hins, foldl_pyDictInsert f ks L hnd, firstDedupFrom, if_pos hk]
    · have hins : pyDictInsert (L.map fun x => (x, f x)) k (f k) =
          (L ++ [k]).map fun x => (x, f x) := by
        rw [pyDictInsert, if_neg (by rw [map_fst_map_fn]; exact hk), List.map_append]
        rfl
      rw [hins, foldl_pyDictInsert f ks (L ++ [k])
        (List.Nodup.append hnd (List.nodup_singleton k)
          (by simpa [List.disjoint_singleton] using hk)),
        firstDedupFrom, if_neg hk]
      rw [@firstDedupFrom_congr ks (L ++ [k]) (k :: L) (by intro x; simp [or_comm]),
        List.append_assoc]
      rfl

theorem merge_grammars_eq (g1 g2 : Grammar) :
    merge_grammars g1 g2 = (firstDedupFrom [] (g1.map Prod.fst ++ g2.map Prod.fst)).map
      (fun k => (k, pySetUnion (pyGet g1 k) (pyGet g2 k))) := by
  have h := foldl_pyDictInsert (fun k => pySetUnion (pyGet g1 k) (pyGet g2 k))
    (g1.map Prod.fst ++ g2.map Prod.fst) [] List.nodup_nil
  simpa [merge_grammars] using h

theorem mem_pySetUnion (a b : List Str) (x : Str) : x ∈ pySetUnion a b ↔ x ∈ a ∨ x ∈ b := by
  rw [pySetUnion, mem_firstDedupFrom]
  simp

theorem nodup_pySetUnion (a b : List Str) : (pySetUnion a b).Nodup :=
  nodup_firstDedupFrom _ _

theorem pyLookup_append {β : Type} :
    ∀ (d1 d2 : List (Str × β)) (q : Str),
      pyLookup (d1 ++ d2) q =
        match pyLookup d1 q with
        | some v => some v
        | none => pyLookup d2 q
  | [], d2, q => rfl
  | e :: d1, d2, q => by
    rw [List.cons_append, pyLookup, pyLookup]
    by_cases he : e.1 = q
    · rw [if_pos he, if_pos he]
    · rw [if_neg he, if_neg he]
      exact pyLookup_append d1 d2 q

theorem pyLookup_map_overwrite {β : Type} (k : Str) (val : β) :
    ∀ (d : List (Str × β)), k ∈ d.map Prod.fst →
      pyLookup (d.map fun e => if e.1 = k then (k, val) else e) k = some val
  | [], h => absurd h (List.not_mem_nil k)
  | e :: d, h => by
    by_cases he : e.1 = k
    · rw [List.map_cons, if_pos he, pyLookup, if_pos rfl]
    · rw [List.map_cons, if_neg he, pyLookup, if_neg he]
      refine pyLookup_map_overwrite k val d ?_
      have h' : k ∈ e.1 :: d.map Prod.fst := by rw [List.map_cons] at h; exact h
      rcases List.mem_cons.mp h' with h1 | h2
      · exact absurd h1.symm he
      · exact h2

theorem pyLookup_map_overwrite_ne {β : Type} (k : Str) (val : β) (q : Str) (h : k ≠ q) :
    ∀ d : List (Str × β),
      pyLookup (d.map fun e => if e.1 = k then (k, val) else e) q = pyLookup d q
  | [] => rfl
  | e :: d => by
    by_cases he : e.1 = k
    · rw [List.map_cons, if_pos he, pyLookup, pyLookup,
        if_neg (show ¬(k = q) from h), if_neg (fun hq => h (he.symm.trans hq))]
      exact pyLookup_map_overwrite_ne k val q h d
    · rw [List.map_cons, if_neg he, pyLookup, pyLookup]
      by_cases heq : e.1 = q
      · rw [if_pos heq, if_pos heq]
      · rw [if_neg heq, if_neg heq]
        exact pyLookup_map_overwrite_ne k val q h d

theorem pyLookup_pyDictInsert_self {β : Type} (d : List (Str × β)) (k : Str) (val : β) :
    pyLookup (pyDictInsert d k val) k = some val := by
  rw [pyDictInsert]
  by_cases h : k ∈ d.map Prod.fst
  · rw [if_pos h]
    exact pyLookup_map_overwrite k val d h
  · rw [if_neg h, pyLookup_append, (pyLookup_eq_none d k).mpr h]
    simp [pyLookup]

theorem pyLookup_pyDictInsert_ne {β : Type} (d : List (Str × β)) (k : Str) (val : β) (q : Str)
    (h : k ≠ q) : pyLookup (pyDictInsert d k val) q = pyLookup d q := by
  rw [pyDictInsert]
  by_cases hm : k ∈ d.map Prod.fst
  · rw [if_pos hm]
    exact pyLookup_map_overwrite_ne k val q h d
  · rw [if_neg hm, pyLookup_append]
    cases hl : pyLookup d q with
    | some v => rfl
    | none => simp [pyLookup, h]

/-! ## Single observation steps of `update_vars` -/

theorem update_vars_preserves_truthy (namespaced : Bool) (ist : InputStack) (var : Str)
    (value : PyVal) (frame : Frame) (v v' : Vars) (q : Str)
    (ht : pyTruthy (pyLookup v.defs q) = true)
    (h : Vars.update_vars namespaced ist var value frame v = some v') :
    pyLookup v'.defs q = pyLookup v.defs q := by
  cases value with
  | other =>
    rw [Vars.update_vars] at h
    simp only [Option.some.injEq] at h
    rw [← h]
  | str s =>
    rw [Vars.update_vars] at h
    by_cases hl : 2 ≤ s.length
    · rw [if_pos hl] at h
      cases hh : ist.has s with
      | none =>
        rw [hh] at h
        cases h
      | some b =>
        rw [hh] at h
        cases b with
        | false =>
          simp only [Bool.false_eq_true, if_false, Option.some.injEq] at h
          rw [← h]
        | true =>
          simp only [if_true] at h
          by_cases hq : Vars.varname namespaced var frame = q
          · rw [hq, ht, if_pos rfl] at h
            simp only [Option.some.injEq] at h
            rw [← h]
          · by_cases ht2 : pyTruthy (pyLookup v.defs (Vars.varname namespaced var frame)) = true
            · rw [if_pos ht2] at h
              simp only [Option.some.injEq] at h
              rw [← h]
            · rw [if_neg ht2] at h
              simp only [Option.some.injEq] at h
              rw [← h]
              exact pyLookup_pyDictInsert_ne _ _ _ _ hq
    · rw [if_neg hl] at h
      simp only [Option.some.injEq] at h
      rw [← h]

theorem update_vars_skip (namespaced : Bool) (ist : InputStack) (var : Str)
    (value : PyVal) (frame : Frame) (v v' : Vars) (q : Str)
    (hnq : obsQualifies namespaced q ⟨ist, var, value, frame⟩ = false)
    (h : Vars.update_vars namespaced ist var value frame v = some v') :
    pyLookup v'.defs q = pyLookup v.defs q := by
  cases value with
  | other =>
    rw [Vars.update_vars] at h
    simp only [Option.some.injEq] at h
    rw [← h]
  | str s =>
    rw [Vars.update_vars] at h
    by_cases hl : 2 ≤ s.length
    · rw [if_pos hl] at h
      cases hh : ist.has s with
      | none =>
        rw [hh] at h
        cases h
      | some b =>
        rw [hh] at h
        cases b with
        | false =>
          simp only [Bool.false_eq_true, if_false, Option.some.injEq] at h
          rw [← h]
        | true =>
          simp only [if_true] at h
          have hq : Vars.varname namespaced var frame ≠ q := by
            intro hc
            rw [obsQualifies] at hnq
            simp only [hc, hl, hh] at hnq
            simp at hnq
          by_cases ht2 : pyTruthy (pyLookup v.defs (Vars.varname namespaced var frame)) = true
          · rw [if_pos ht2] at h
            simp only [Option.some.injEq] at h
            rw [← h]
          · rw [if_neg ht2] at h
            simp only [Option.some.injEq] at h
            rw [← h]
            exact pyLookup_pyDictInsert_ne _ _ _ _ hq
    · rw [if_neg hl] at h
      simp only [Option.some.injEq] at h
      rw [← h]

theorem update_vars_records (namespaced : Bool) (ist : InputStack) (var : Str)
    (value : PyVal) (frame : Frame) (v v' : Vars) (q : Str)
    (hq : obsQualifies namespaced q ⟨ist, var, value, frame⟩ = true)
    (hnt : pyTruthy (pyLookup v.defs q) = false)
    (h : Vars.update_vars namespaced ist var value frame v = some v') :
    ∃ s : Str, value = .str s ∧ 2 ≤ s.length ∧ pyLookup v'.defs q = some s := by
  cases value with
  | other =>
    rw [obsQualifies] at hq
    cases hq
  | str s =>
    rw [obsQualifies] at hq
    simp only [Bool.and_eq_true, decide_eq_true_eq] at hq
    obtain ⟨⟨hname, hlen⟩, hhas⟩ := hq
    rw [Vars.update_vars, if_pos hlen, hhas] at h
    simp only [if_true, hname, hnt, Bool.false_eq_true, if_false, Option.some.injEq] at h
    refine ⟨s, rfl, hlen, ?_⟩
    rw [← h]
    exact pyLookup_pyDictInsert_self _ _ _

theorem runObs_preserves_truthy (namespaced : Bool) (q : Str) :
    ∀ (obs : List Obs) (v v' : Vars), pyTruthy (pyLookup v.defs q) = true →
      runObs namespaced obs v = some v' → pyLookup v'.defs q = pyLookup v.defs q
  | [], v, v', _, h => by
    rw [runObs, List.foldlM_nil] at h
    simp only [pure, Option.some.injEq] at h
    rw [← h]
  | o :: obs, v, v', ht, h => by
    rw [runObs, List.foldlM_cons] at h
    cases hu : Vars.update_vars namespaced o.istack o.var o.value o.frame v with
    | none =>
      rw [hu] at h
      cases h
    | some v1 =>
      rw [hu] at h
      simp only [Option.bind_eq_bind, Option.some_bind] at h
      have hstep := update_vars_preserves_truthy namespaced o.istack o.var o.value o.frame
        v v1 q ht hu
      have ht1 : pyTruthy (pyLookup v1.defs q) = true := by rw [hstep]; exact ht
      rw [runObs_preserves_truthy namespaced q obs v1 v' ht1 h, hstep]

theorem runObs_first_wins (namespaced : Bool) (q : Str) :
    ∀ (obs : List Obs) (v0 v : Vars), pyTruthy (pyLookup v0.defs q) = false →
      runObs namespaced obs v0 = some v →
      pyLookup v.defs q =
        match firstQualVal namespaced q obs with
        | some s => some s
        | none => pyLookup v0.defs q
  | [], v0, v, _, h => by
    rw [runObs, List.foldlM_nil] at h
    simp only [pure, Option.some.injEq] at h
    rw [← h, firstQualVal, List.find?_nil]
  | o :: obs, v0, v, hnt, h => by
    rw [runObs, List.foldlM_cons] at h
    cases hu : Vars.update_vars namespaced o.istack o.var o.value o.frame v0 with
    | none =>
      rw [hu] at h
      cases h
    | some v1 =>
      rw [hu] at h
      simp only [Option.bind_eq_bind, Option.some_bind] at h
      by_cases hq : obsQualifies namespaced q o = true
      · obtain ⟨s, hval, hlen, hrec⟩ :=
          update_vars_records namespaced o.istack o.var o.value o.frame v0 v1 q hq hnt hu
        have htr : pyTruthy (pyLookup v1.defs q) = true := by
          rw [hrec, pyTruthy]
          cases s with
          | nil => simp at hlen
          | cons c cs => rfl
        have hrest := runObs_preserves_truthy namespaced q obs v1 v htr h
        have hf : firstQualVal namespaced q (o :: obs) = some s := by
          rw [firstQualVal, List.find?_cons_of_pos _ hq]
          dsimp only
          rw [hval]
        rw [hf, hrest, hrec]
      · have hq' : obsQualifies namespaced q o = false := by
          cases he : obsQualifies namespaced q o
          · rfl
          · exact absurd he hq
        have hskip := update_vars_skip namespaced o.istack o.var o.value o.frame v0 v1 q hq' hu
        have hnt1 : pyTruthy (pyLookup v1.defs q) = false := by rw [hskip]; exact hnt
        have hrest := runObs_first_wins namespaced q obs v1 v hnt1 h
        have hf : firstQualVal namespaced q (o :: obs) = firstQualVal namespaced q obs := by
          rw [firstQualVal, firstQualVal, List.find?_cons_of_neg _ (by rw [hq']; simp)]
        rw [hf, hrest, hskip]

theorem mem_strLocals (params : List (Str × PyVal)) (k s : Str) :
    (k, s) ∈ strLocals params ↔ (k, PyVal.str s) ∈ params := by
  rw [strLocals, List.mem_filterMap]
  constructor
  · rintro ⟨⟨k0, val⟩, hmem, hf⟩
    cases val with
    | str s0 =>
      simp only [Option.some.injEq, Prod.mk.injEq] at hf
      rw [← hf.1, ← hf.2]
      exact hmem
    | other => cases hf
  · intro hmem
    exact ⟨(k, .str s), hmem, rfl⟩

theorem update_vars_total (namespaced : Bool) (ist : InputStack) (var : Str) (value : PyVal)
    (frame : Frame) (v : Vars) (h : ist.inputs ≠ []) :
    ∃ v', Vars.update_vars namespaced ist var value frame v = some v' := by
  cases value with
  | other => exact ⟨v, rfl⟩
  | str s =>
    rw [Vars.update_vars]
    by_cases hl : 2 ≤ s.length
    · rw [if_pos hl]
      obtain ⟨top, rest, heq⟩ : ∃ top rest, ist.inputs = top :: rest := by
        cases hi : ist.inputs with
        | nil => exact absurd hi h
        | cons t r => exact ⟨t, r, rfl⟩
      have hh : ist.has s = some (top.any (fun e => containsSub s e.2)) := by
        rw [InputStack.has, heq]
      rw [hh]
      cases top.any (fun e => containsSub s e.2) with
      | false => exact ⟨v, by simp⟩
      | true =>
        by_cases ht : pyTruthy (pyLookup v.defs (Vars.varname namespaced var frame)) = true
        · exact ⟨v, by simp [ht]⟩
        · exact ⟨⟨pyDictInsert v.defs (Vars.varname namespaced var frame) s⟩, by simp [ht]⟩
    · rw [if_neg hl]
      exact ⟨v, rfl⟩

theorem updateVarsAll_total (namespaced : Bool) (ist : InputStack) (frame : Frame)
    (h : ist.inputs ≠ []) :
    ∀ (items : List (Str × PyVal)) (v : Vars),
      ∃ v', updateVarsAll namespaced ist frame items v = some v'
  | [], v => ⟨v, rfl⟩
  | e :: items, v => by
    obtain ⟨v1, hv1⟩ := update_vars_total namespaced ist e.1 e.2 frame v h
    obtain ⟨v', hv'⟩ := updateVarsAll_total namespaced ist frame h items v1
    refine ⟨v', ?_⟩
    rw [updateVarsAll, List.foldlM_cons, hv1]
    simp only [Option.bind_eq_bind, Option.some_bind]
    exact hv'

theorem push_ne_nil (st : InputStack) (params : List (Str × PyVal)) :
    (st.push params).inputs ≠ [] := by
  obtain ⟨inputs⟩ := st
  cases inputs <;> simp [InputStack.push]

/-! ## Claims about the tracing filters and the input stack -/

/-- Counterexample to claim C5 as stated: in the stack-scoped variant an
observation is retained whenever its value is contained in a value active in
the top stack frame, even when it is not a substring of the original sample
(here `"zzz"` is recorded for sample `"ab"`, because the outermost call
pushed the unrelated string parameter `"zzz"`). -/
theorem update_vars_not_sample_substring :
    Vars.update_vars true (InputStack.push ⟨[]⟩ [(['p'], PyVal.str ['z', 'z', 'z'])])
        ['v'] (PyVal.str ['z', 'z', 'z']) ⟨['f'], [], []⟩ (Vars.init ['a', 'b']) =
      some ⟨[(START_SYMBOL, ['a', 'b']), (['f', ':', 'v'], ['z', 'z', 'z'])]⟩ ∧
    ¬ (['z', 'z', 'z'] <:+: ['a', 'b']) := by
  constructor
  · decide
  · decide

/-- Claim C5 (amended): the simple tracer retains an observation exactly
when the value is a string of length greater than 2 occurring in the traced
input string; the stack-scoped `update_vars` acts only on string values of
length at least 2 that are contained in some value active in the top frame
of the input stack (which need not be substrings of the original sample),
recording them under their qualified name unless a truthy value is already
recorded; non-string and shorter values are silently ignored, never
reported as errors. -/
theorem observation_filter_characterization :
    (∀ (inputstr : Str) (locals : List (Str × PyVal)) (k s : Str),
      (k, s) ∈ traceit_filter inputstr locals ↔
        (k, PyVal.str s) ∈ locals ∧ 2 < s.length ∧ s <:+: inputstr) ∧
    (∀ (namespaced : Bool) (ist : InputStack) (var : Str) (frame : Frame) (v : Vars),
      Vars.update_vars namespaced ist var PyVal.other frame v = some v ∧
      (∀ s : Str, s.length < 2 →
        Vars.update_vars namespaced ist var (PyVal.str s) frame v = some v) ∧
      (∀ s : Str, ist.has s = some false →
        Vars.update_vars namespaced ist var (PyVal.str s) frame v = some v) ∧
      (∀ s : Str, 2 ≤ s.length → ist.has s = some true →
        Vars.update_vars namespaced ist var (PyVal.str s) frame v =
          some (if pyTruthy (pyLookup v.defs (Vars.varname namespaced var frame)) then v
            else ⟨pyDictInsert v.defs (Vars.varname namespaced var frame) s⟩))) := by
  constructor
  · intro inputstr locals k s
    rw [traceit_filter, List.mem_filterMap]
    constructor
    · rintro ⟨⟨k0, val⟩, hmem, hf⟩
      dsimp only at hf
      cases val with
      | str s0 =>
        dsimp only at hf
        by_cases hc : 2 < s0.length ∧ containsSub s0 inputstr = true
        · rw [if_pos hc] at hf
          simp only [Option.some.injEq, Prod.mk.injEq] at hf
          obtain ⟨h1, h2⟩ := hf
          rw [← h1, ← h2]
          exact ⟨hmem, hc.1, (containsSub_iff s0 inputstr).mp hc.2⟩
        · rw [if_neg hc] at hf
          cases hf
      | other => cases hf
    · rintro ⟨hmem, hlen, hinf⟩
      refine ⟨(k, .str s), hmem, ?_⟩
      dsimp only
      rw [if_pos ⟨hlen, (containsSub_iff s inputstr).mpr hinf⟩]
  · intro namespaced ist var frame v
    refine ⟨rfl, ?_, ?_, ?_⟩
    · intro s hs
      rw [Vars.update_vars, if_neg (by omega)]
    · intro s hh
      rw [Vars.update_vars]
      by_cases hl : 2 ≤ s.length
      · rw [if_pos hl, hh]
        simp
      · rw [if_neg hl]
    · intro s hl hh
      rw [Vars.update_vars, if_pos hl, hh]
      by_cases ht : pyTruthy (pyLookup v.defs (Vars.varname namespaced var frame)) = true
      · simp [ht]
      · simp [ht]

/-- Witness for the amended C5: a concrete qualifying observation is
recorded under its qualified name, and concrete short / unknown / non-string
values are silently ignored. -/
theorem observation_filter_characterization_witness :
    ((['k'], ['a', 'b', 'c']) ∈ traceit_filter ['a', 'b', 'c']
        [(['k'], PyVal.str ['a', 'b', 'c'])] ↔
      (['k'], PyVal.str ['a', 'b', 'c']) ∈ [(['k'], PyVal.str ['a', 'b', 'c'])] ∧
        2 < (['a', 'b', 'c'] : Str).length ∧ ['a', 'b', 'c'] <:+: ['a', 'b', 'c']) ∧
    Vars.update_vars true ⟨[[(['p'], ['z', 'z'])]]⟩ ['v'] (PyVal.str ['z', 'z'])
        ⟨['f'], [], []⟩ (Vars.init ['a']) =
      some (if pyTruthy (pyLookup (Vars.init ['a']).defs
            (Vars.varname true ['v'] ⟨['f'], [], []⟩)) then Vars.init ['a']
        else ⟨pyDictInsert (Vars.init ['a']).defs
            (Vars.varname true ['v'] ⟨['f'], [], []⟩) ['z', 'z']⟩) :=
  ⟨observation_filter_characterization.1 ['a', 'b', 'c'] [(['k'], PyVal.str ['a', 'b', 'c'])]
      ['k'] ['a', 'b', 'c'],
    ((observation_filter_characterization.2 true ⟨[[(['p'], ['z', 'z'])]]⟩ ['v']
        ⟨['f'], [], []⟩ (Vars.init ['a'])).2.2.2 ['z', 'z'] (by decide) (by decide))⟩

/-- Claim C7: on a traced call event the stack tracer pushes exactly the
string-valued parameters that the enclosing frame's active set contains (the
outermost call pushes all its string parameters) as the new top frame, and a
traced return event discards the top frame. -/
theorem stack_scoping (namespaced : Bool) (frame : Frame) (st : StackTracerState) :
    (∀ params, ∃ v', StackTracer.traceitStep namespaced true frame (.call params) st =
        some ⟨st.istack.push params, v'⟩) ∧
    (∀ params k s, st.istack.inputs = [] →
      ((k, s) ∈ ((st.istack.push params).inputs.headD []) ↔ (k, PyVal.str s) ∈ params)) ∧
    (∀ params k s top rest, st.istack.inputs = top :: rest →
      ((k, s) ∈ ((st.istack.push params).inputs.headD []) ↔
        (k, PyVal.str s) ∈ params ∧ ∃ e ∈ top, s <:+: e.2)) ∧
    (∀ top rest, st.istack.inputs = top :: rest →
      StackTracer.traceitStep namespaced true frame .ret st = some ⟨⟨rest⟩, st.vars⟩) := by
  refine ⟨?_, ?_, ?_, ?_⟩
  · intro params
    obtain ⟨v', hv⟩ := updateVarsAll_total namespaced (st.istack.push params) frame
      (push_ne_nil _ _) params st.vars
    refine ⟨v', ?_⟩
    rw [StackTracer.traceitStep, if_neg (by simp)]
    dsimp only
    rw [hv]
  · intro params k s h0
    have hp : (st.istack.push params).inputs = [strLocals params] := by
      rw [InputStack.push, h0]
    rw [hp]
    exact mem_strLocals params k s
  · intro params k s top rest h0
    have hp : (st.istack.push params).inputs =
        (strLocals params).filter (fun e => top.any (fun f => containsSub e.2 f.2)) ::
          top :: rest := by
      rw [InputStack.push, h0]
    rw [hp]
    simp only [List.headD_cons, List.mem_filter, mem_strLocals, List.any_eq_true]
    constructor
    · rintro ⟨h1, h2⟩
      refine ⟨h1, ?_⟩
      obtain ⟨e, he, hc⟩ := h2
      exact ⟨e, he, (containsSub_iff s e.2).mp hc⟩
    · rintro ⟨h1, e, he, hc⟩
      exact ⟨h1, e, he, (containsSub_iff s e.2).mpr hc⟩
  · intro top rest h0
    rw [StackTracer.traceitStep, if_neg (by simp), InputStack.pop, h0]

/-- Witness for C7: concrete call events on an empty and on a non-empty
stack, and a concrete return event. -/
theorem stack_scoping_witness :
    ((['a'], ['x', 'y']) ∈
        ((InputStack.push ⟨[]⟩ [(['a'], PyVal.str ['x', 'y'])]).inputs.headD []) ∧
      ((['b'], ['q', 'q']) ∈
          ((InputStack.push ⟨[[(['p'], ['x', 'y'])]]⟩
            [(['b'], PyVal.str ['q', 'q'])]).inputs.headD []) ↔
        (['b'], PyVal.str ['q', 'q']) ∈ [(['b'], PyVal.str ['q', 'q'])] ∧
          ∃ e ∈ [(['p'], ['x', 'y'])], (['q', 'q'] : Str) <:+: e.2) ∧
      StackTracer.traceitStep true true ⟨['f'], [], []⟩ Event.ret
          ⟨⟨[[(['p'], ['x', 'y'])]]⟩, Vars.init ['x']⟩ =
        some ⟨⟨[]⟩, Vars.init ['x']⟩) :=
  ⟨((stack_scoping true ⟨['f'], [], []⟩ ⟨⟨[]⟩, Vars.init ['x']⟩).2.1
      [(['a'], PyVal.str ['x', 'y'])] ['a'] ['x', 'y'] rfl).mpr (by decide),
    (stack_scoping true ⟨['f'], [], []⟩ ⟨⟨[[(['p'], ['x', 'y'])]]⟩, Vars.init ['x']⟩).2.2.1
      [(['b'], PyVal.str ['q', 'q'])] ['b'] ['q', 'q'] [(['p'], ['x', 'y'])] [] rfl,
    (stack_scoping true ⟨['f'], [], []⟩ ⟨⟨[[(['p'], ['x', 'y'])]]⟩, Vars.init ['x']⟩).2.2.2
      [(['p'], ['x', 'y'])] [] rfl⟩

/-- Claim C9: `update_vars` records a value for a qualified name only when
no truthy value is recorded for it; over a whole trace each qualified name
receives the first qualifying value observed and later observations never
overwrite it, and the tainted variant likewise never overwrites a recorded
non-empty definition. -/
theorem update_vars_first_wins (namespaced : Bool) (q : Str) :
    (∀ (obs : List Obs) (v0 v : Vars), pyTruthy (pyLookup v0.defs q) = false →
      runObs namespaced obs v0 = some v →
      pyLookup v.defs q =
        match firstQualVal namespaced q obs with
        | some s => some s
        | none => pyLookup v0.defs q) ∧
    (∀ (ist : TaintedInputStack) (var : Str) (value : TVal) (frame : Frame) (v v' : Vars)
        (w : Str), pyLookup v.defs q = some w → w ≠ [] →
      TaintedVars.update_vars namespaced ist var value frame v = some v' →
      pyLookup v'.defs q = some w) := by
  constructor
  · exact runObs_first_wins namespaced q
  · intro ist var value frame v v' w hw hne h
    have ht : pyTruthy (pyLookup v.defs q) = true := by
      rw [hw, pyTruthy]
      cases w with
      | nil => exact absurd rfl hne
      | cons c cs => rfl
    cases value with
    | nont =>
      rw [TaintedVars.update_vars] at h
      simp only [Option.some.injEq] at h
      rw [← h]
      exact hw
    | t ts =>
      rw [TaintedVars.update_vars] at h
      by_cases hl : 2 ≤ ts.chars.length
      · rw [if_pos hl] at h
        cases hh : ist.has ts with
        | none =>
          rw [hh] at h
          cases h
        | some b =>
          rw [hh] at h
          cases b with
          | false =>
            simp only [Bool.false_eq_true, if_false, Option.some.injEq] at h
            rw [← h]
            exact hw
          | true =>
            simp only [if_true] at h
            by_cases hq : Vars.varname namespaced var frame = q
            · rw [hq, ht, if_pos rfl] at h
              simp only [Option.some.injEq] at h
              rw [← h]
              exact hw
            · by_cases ht2 :
                  pyTruthy (pyLookup v.defs (Vars.varname namespaced var frame)) = true
              · rw [if_pos ht2] at h
                simp only [Option.some.injEq] at h
                rw [← h]
                exact hw
              · rw [if_neg ht2] at h
                simp only [Option.some.injEq] at h
                rw [← h, pyLookup_pyDictInsert_ne _ _ _ _ hq]
                exact hw
      · rw [if_neg hl] at h
        simp only [Option.some.injEq] at h
        rw [← h]
        exact hw

/-- Witness for C9: a concrete trace delivering two qualifying values for
the same qualified name records the first and keeps it. -/
theorem update_vars_first_wins_witness :
    pyTruthy (pyLookup (Vars.init ['x', 'y']).defs ['f', ':', 'v']) = false ∧
    pyLookup
        (⟨[(START_SYMBOL, ['x', 'y']), (['f', ':', 'v'], ['a', 'b'])]⟩ : Vars).defs
        ['f', ':', 'v'] =
      match firstQualVal true ['f', ':', 'v']
          [⟨⟨[[(['p'], ['a', 'b'])]]⟩, ['v'], PyVal.str ['a', 'b'], ⟨['f'], [], []⟩⟩,
            ⟨⟨[[(['p'], ['c', 'd'])]]⟩, ['v'], PyVal.str ['c', 'd'], ⟨['f'], [], []⟩⟩] with
      | some s => some s
      | none => pyLookup (Vars.init ['x', 'y']).defs ['f', ':', 'v'] :=
  ⟨by decide,
    (update_vars_first_wins true ['f', ':', 'v']).1
      [⟨⟨[[(['p'], ['a', 'b'])]]⟩, ['v'], PyVal.str ['a', 'b'], ⟨['f'], [], []⟩⟩,
        ⟨⟨[[(['p'], ['c', 'd'])]]⟩, ['v'], PyVal.str ['c', 'd'], ⟨['f'], [], []⟩⟩]
      (Vars.init ['x', 'y'])
      ⟨[(START_SYMBOL, ['x', 'y']), (['f', ':', 'v'], ['a', 'b'])]⟩
      (by decide) (by decide)⟩

/-! ## Claims about `merge_grammars` -/

/-- Claim C3: for every pair of grammars and every nonterminal appearing in
either, `merge_grammars` maps that nonterminal to exactly the set union of
the two grammars' alternative collections for it (an absent entry
contributing the empty collection); no alternative of either input is
dropped, and duplicates are collapsed. -/
theorem merge_grammars_union (g1 g2 : Grammar) (k : Str)
    (hk : k ∈ g1.map Prod.fst ∨ k ∈ g2.map Prod.fst) :
    ∃ l, pyLookup (merge_grammars g1 g2) k = some l ∧
      (∀ x, x ∈ l ↔ x ∈ pyGet g1 k ∨ x ∈ pyGet g2 k) ∧ l.Nodup := by
  rw [merge_grammars_eq]
  refine ⟨pySetUnion (pyGet g1 k) (pyGet g2 k), ?_, fun x => mem_pySetUnion _ _ x,
    nodup_pySetUnion _ _⟩
  refine pyLookup_map_fn _ _ k ?_
  rw [mem_firstDedupFrom]
  simpa using hk

/-- Witness for C3 at a concrete pair of grammars. -/
theorem merge_grammars_union_witness :
    (('<' :: 'a' :: ['>']) ∈ ([(['<', 'a', '>'], [['x']])] : Grammar).map Prod.fst ∨
      ('<' :: 'a' :: ['>']) ∈ ([(['<', 'a', '>'], [['y']])] : Grammar).map Prod.fst) ∧
    (∃ l, pyLookup (merge_grammars [(['<', 'a', '>'], [['x']])] [(['<', 'a', '>'], [['y']])])
        ['<', 'a', '>'] = some l ∧
      (∀ x, x ∈ l ↔ x ∈ pyGet [(['<', 'a', '>'], [['x']])] ['<', 'a', '>'] ∨
        x ∈ pyGet [(['<', 'a', '>'], [['y']])] ['<', 'a', '>']) ∧ l.Nodup) :=
  ⟨by decide, merge_grammars_union [(['<', 'a', '>'], [['x']])] [(['<', 'a', '>'], [['y']])]
    ['<', 'a', '>'] (by decide)⟩

/-- Counterexample to claim C4 as stated: merging a grammar that holds a
duplicated alternative with itself collapses the duplicate, so the merged
grammar is not identical to the original. -/
theorem merge_grammars_self_counterexample :
    merge_grammars [(['<', 'k', '>'], [['a', 'b'], ['a', 'b']])]
        [(['<', 'k', '>'], [['a', 'b'], ['a', 'b']])] ≠
      [(['<', 'k', '>'], [['a', 'b'], ['a', 'b']])] := by decide

/-- Claim C4 (amended): merging a grammar with itself yields a grammar with
the same nonterminals in the same order, binding each nonterminal to a
duplicate-free collection with exactly the same members as the original's
alternatives for it (lists with duplicates are collapsed, so the result need
not be identical to the original). -/
theorem merge_grammars_self_sets (g : Grammar) (hk : (g.map Prod.fst).Nodup) :
    (merge_grammars g g).map Prod.fst = g.map Prod.fst ∧
      ∀ k, (∀ x, x ∈ pyGet (merge_grammars g g) k ↔ x ∈ pyGet g k) ∧
        (pyGet (merge_grammars g g) k).Nodup := by
  have hkeys : firstDedupFrom [] (g.map Prod.fst ++ g.map Prod.fst) = g.map Prod.fst :=
    firstDedupFrom_append_self _ [] _ hk (by simp) (fun x hx => Or.inl hx)
  constructor
  · rw [merge_grammars_eq, map_fst_map_fn, hkeys]
  · intro k
    by_cases hmem : k ∈ g.map Prod.fst
    · have hl : pyLookup (merge_grammars g g) k = some (pySetUnion (pyGet g k) (pyGet g k)) := by
        rw [merge_grammars_eq]
        exact pyLookup_map_fn _ _ k ((mem_firstDedupFrom _ _ k).mpr
          ⟨List.mem_append_left _ hmem, List.not_mem_nil k⟩)
      rw [pyGet, hl]
      constructor
      · intro x
        simpa [or_self] using mem_pySetUnion (pyGet g k) (pyGet g k) x
      · exact nodup_pySetUnion _ _
    · have h1 : pyLookup (merge_grammars g g) k = none := by
        rw [pyLookup_eq_none, merge_grammars_eq, map_fst_map_fn, hkeys]
        exact hmem
      have h2 : pyLookup g k = none := (pyLookup_eq_none g k).mpr hmem
      rw [pyGet, h1, pyGet, h2]
      exact ⟨fun x => Iff.rfl, List.nodup_nil⟩

/-- Witness for the amended C4 at a concrete grammar. -/
theorem merge_grammars_self_sets_witness :
    (([(['<', 'a', '>'], [['x']])] : Grammar).map Prod.fst).Nodup ∧
    ((merge_grammars [(['<', 'a', '>'], [['x']])] [(['<', 'a', '>'], [['x']])]).map Prod.fst =
        ([(['<', 'a', '>'], [['x']])] : Grammar).map Prod.fst ∧
      ∀ k, (∀ x, x ∈ pyGet (merge_grammars [(['<', 'a', '>'], [['x']])]
            [(['<', 'a', '>'], [['x']])]) k ↔ x ∈ pyGet [(['<', 'a', '>'], [['x']])] k) ∧
        (pyGet (merge_grammars [(['<', 'a', '>'], [['x']])] [(['<', 'a', '>'], [['x']])]) k).Nodup) :=
  ⟨by decide, merge_grammars_self_sets [(['<', 'a', '>'], [['x']])] (by decide)⟩

/-! ## Claim about the tracer's enter/exit protocol -/

/-- Claim C6: whatever the traced call does — return normally or raise — the
tracer restores the instrumentation hook that was active before the trace
began, and a raised exception reaches the caller unmodified (never
suppressed, never replaced). -/
theorem tracer_restores_hook_and_propagates {ε α : Type} (myHook : Nat)
    (body : Option Nat → Except ε α × Option Nat) (st0 : Option Nat) :
    (traceWith myHook body st0).2 = st0 ∧
      (∀ a st2, body (some myHook) = (.ok a, st2) →
        (traceWith myHook body st0).1 = .normal a) ∧
      (∀ e st2, body (some myHook) = (.error e, st2) →
        (traceWith myHook body st0).1 = .raised e) := by
  refine ⟨?_, ?_, ?_⟩
  · rw [traceWith, pyWith]
    cases hb : (body (Tracer.enter myHook st0).1).1 with
    | ok a => rfl
    | error e => rfl
  · intro a st2 h
    simp [traceWith, pyWith, Tracer.enter, Tracer.exitFn, h]
  · intro e st2 h
    simp [traceWith, pyWith, Tracer.enter, Tracer.exitFn, h]

/-- Witness for C6 at a concrete hook, body and prior hook state, in both
the normal and the raising case. -/
theorem tracer_restores_hook_witness :
    ((traceWith (ε := Str) 7 (fun s => (Except.ok 42, s)) (some 3)).2 = some 3 ∧
      (traceWith (ε := Str) 7 (fun s => (Except.ok 42, s)) (some 3)).1 = .normal 42) ∧
    ((traceWith (α := Nat) 7 (fun s => (Except.error ['b'], s)) (some 3)).2 = some 3 ∧
      (traceWith (α := Nat) 7 (fun s => (Except.error ['b'], s)) (some 3)).1 = .raised ['b']) :=
  ⟨⟨(tracer_restores_hook_and_propagates 7 (fun s => (Except.ok 42, s)) (some 3)).1,
    (tracer_restores_hook_and_propagates 7 (fun s => (Except.ok 42, s)) (some 3)).2.1
      42 (some 7) rfl⟩,
   ⟨(tracer_restores_hook_and_propagates 7 (fun s => (Except.error ['b'], s)) (some 3)).1,
    (tracer_restores_hook_and_propagates 7 (fun s => (Except.error ['b'], s)) (some 3)).2.2
      ['b'] (some 7) rfl⟩⟩

/-! ## String-rewriting lemmas -/

theorem replaceGo_skip (pat sub : Str) :
    ∀ (n : Nat) (s : Str), replaceGo pat sub n s = replaceGo pat sub 0 (s.drop n)
  | 0, s => by rw [List.drop_zero]
  | n + 1, [] => by rw [List.drop_nil]; rfl
  | n + 1, c :: s => by
    rw [List.drop_succ_cons]
    exact replaceGo_skip pat sub n s

theorem replaceScan_cons (pat sub : Str) (c : Char) (s : Str) :
    replaceScan pat sub (c :: s) =
      if pat.isEmpty then sub ++ c :: replaceScan pat sub s
      else if leadsWith pat (c :: s) then
        sub ++ replaceScan pat sub (s.drop (pat.length - 1))
      else c :: replaceScan pat sub s := by
  rw [replaceScan, replaceGo, replaceGo_skip pat sub (pat.length - 1) s]
  rfl

theorem symReplaceGo_skip (v w : Str) :
    ∀ (n : Nat) (l : List GSym), symReplaceGo v w n l = symReplaceGo v w 0 (l.drop n)
  | 0, l => by rw [List.drop_zero]
  | n + 1, [] => by rw [List.drop_nil]; rfl
  | n + 1, s :: l => by
    rw [List.drop_succ_cons]
    exact symReplaceGo_skip v w n l

theorem symReplace_cons (v w : Str) (s : GSym) (l : List GSym) :
    symReplace v w (s :: l) =
      if v.isEmpty = false ∧ leadsWith (v.map GSym.chr) (s :: l) = true then
        GSym.tok w :: symReplace v w (l.drop (v.length - 1))
      else s :: symReplace v w l := by
  rw [symReplace, symReplaceGo, symReplaceGo_skip v w (v.length - 1) l]
  rfl

theorem bracketFree_cons {c : Char} {s : Str} :
    bracketFree (c :: s) ↔ (c ≠ '<' ∧ c ≠ '>') ∧ bracketFree s := by
  rw [bracketFree, bracketFree]
  simp only [List.mem_cons, not_or]
  tauto

theorem bracketFree_of_infix {v S : Str} (h : v <:+: S) (hS : bracketFree S) : bracketFree v :=
  ⟨fun hc => hS.1 (h.subset hc), fun hc => hS.2 (h.subset hc)⟩

theorem prefix_stop_at_gt : ∀ (w m y : Str), '>' ∉ w → w <+: (m ++ '>' :: y) → w <+: m
  | [], m, _, _, _ => List.nil_prefix
  | a :: w', m, y, hgt, hp => by
    cases m with
    | nil =>
      rw [List.nil_append] at hp
      obtain ⟨ha, _⟩ := List.cons_prefix_cons.mp hp
      refine absurd ?_ hgt
      rw [ha]
      exact List.mem_cons_self '>' w'
    | cons b m' =>
      rw [List.cons_append] at hp
      obtain ⟨hab, hp'⟩ := List.cons_prefix_cons.mp hp
      subst hab
      exact List.cons_prefix_cons.mpr
        ⟨rfl, prefix_stop_at_gt w' m' y (fun hc => hgt (List.mem_cons_of_mem _ hc)) hp'⟩

theorem tokenKey_prefix_name : ∀ (n m rest : Str), bracketFree n → bracketFree m →
    (n ++ ['>']) <+: (m ++ '>' :: rest) → n = m
  | [], [], _, _, _, _ => rfl
  | [], b :: m', rest, _, hm, hp => by
    rw [List.nil_append, List.cons_append] at hp
    obtain ⟨hb, _⟩ := List.cons_prefix_cons.mp hp
    exact absurd hb.symm (bracketFree_cons.mp hm).1.2
  | a :: n', m, rest, hn, hm, hp => by
    cases m with
    | nil =>
      rw [List.cons_append, List.nil_append] at hp
      obtain ⟨ha, _⟩ := List.cons_prefix_cons.mp hp
      exact absurd ha (bracketFree_cons.mp hn).1.2
    | cons b m' =>
      rw [List.cons_append, List.cons_append] at hp
      obtain ⟨hab, hp'⟩ := List.cons_prefix_cons.mp hp
      rw [hab]
      exact congrArg _ (tokenKey_prefix_name n' m' rest (bracketFree_cons.mp hn).2
        (bracketFree_cons.mp hm).2 hp')

theorem leadsWith_false_of_head (a : Char) (v' : Str) (c : Char) (y : Str) (hac : a ≠ c) :
    ¬ (leadsWith (a :: v') (c :: y) = true) := by
  intro hw
  obtain ⟨ha, _⟩ := List.cons_prefix_cons.mp ((leadsWith_iff _ _).mp hw)
  exact hac ha

theorem replaceScan_cons_no_match (pat sub : Str) (c : Char) (s : Str) (hp : pat ≠ [])
    (hlw : ¬ (leadsWith pat (c :: s) = true)) :
    replaceScan pat sub (c :: s) = c :: replaceScan pat sub s := by
  rw [replaceScan_cons, if_neg (by simp [List.isEmpty_iff, hp]), if_neg hlw]

theorem replaceScan_no_occur (pat sub : Str) (hp : pat ≠ []) :
    ∀ s : Str, ¬ pat <:+: s → replaceScan pat sub s = s
  | [], _ => rfl
  | c :: s, h => by
    have hlw : ¬ (leadsWith pat (c :: s) = true) := fun hw =>
      h ((leadsWith_iff _ _).mp hw).isInfix
    rw [replaceScan_cons_no_match pat sub c s hp hlw]
    exact congrArg _ (replaceScan_no_occur pat sub hp s (fun hi => h (List.infix_cons hi)))

theorem pyReplace_no_occur (pat sub s : Str) (hp : pat ≠ []) (h : ¬ pat <:+: s) :
    pyReplace pat sub s = s := by
  rw [pyReplace, if_neg (by simp [List.isEmpty_iff, hp])]
  exact replaceScan_no_occur pat sub hp s h

theorem replaceScan_prefix_match (pat sub y : Str) (hp : pat ≠ []) :
    replaceScan pat sub (pat ++ y) = sub ++ replaceScan pat sub y := by
  cases pat with
  | nil => exact absurd rfl hp
  | cons c p' =>
    rw [List.cons_append, replaceScan_cons, if_neg (by simp [List.isEmpty_iff]),
      if_pos ((leadsWith_iff _ _).mpr (by rw [← List.cons_append]; exact List.prefix_append _ y))]
    congr 1
    rw [List.length_cons, Nat.succ_sub_one, List.drop_left]

theorem replaceScan_walk_lt (p' sub : Str) :
    ∀ (m y : Str), (∀ c ∈ m, c ≠ '<') →
      replaceScan ('<' :: p') sub (m ++ y) = m ++ replaceScan ('<' :: p') sub y
  | [], y, _ => by rw [List.nil_append, List.nil_append]
  | c :: m', y, hm => by
    rw [List.cons_append, replaceScan_cons_no_match _ sub c _ (by simp)
      (leadsWith_false_of_head '<' p' c _ (fun hc => hm c (List.mem_cons_self c m') hc.symm))]
    rw [List.cons_append]
    exact congrArg _ (replaceScan_walk_lt p' sub m' y
      (fun a ha => hm a (List.mem_cons_of_mem _ ha)))

theorem containsSub_cons_walk (pat : Str) (c : Char) (s : Str)
    (hlw : ¬ (leadsWith pat (c :: s) = true)) :
    containsSub pat (c :: s) = containsSub pat s := by
  rw [containsSub]
  cases hw : leadsWith pat (c :: s) with
  | false => rw [Bool.false_or]
  | true => exact absurd hw hlw

theorem containsSub_walk_lt (p' : Str) :
    ∀ (m y : Str), (∀ c ∈ m, c ≠ '<') →
      containsSub ('<' :: p') (m ++ y) = containsSub ('<' :: p') y
  | [], y, _ => by rw [List.nil_append]
  | c :: m', y, hm => by
    rw [List.cons_append, containsSub_cons_walk _ c _
      (leadsWith_false_of_head '<' p' c _ (fun hc => hm c (List.mem_cons_self c m') hc.symm))]
    exact containsSub_walk_lt p' m' y (fun a ha => hm a (List.mem_cons_of_mem _ ha))

theorem replaceScan_name (v sub : Str) (hv : v ≠ []) (hgt : '>' ∉ v) :
    ∀ (n : Str) (y : Str), ¬ v <:+: n →
      replaceScan v sub (n ++ '>' :: y) = n ++ '>' :: replaceScan v sub y
  | [], y, _ => by
    rw [List.nil_append, List.nil_append]
    cases v with
    | nil => exact absurd rfl hv
    | cons a v' =>
      rw [replaceScan_cons_no_match _ sub '>' y (by simp)
        (leadsWith_false_of_head a v' '>' y
          (fun hc => hgt (by rw [← hc]; exact List.mem_cons_self a v')))]
  | c :: n', y, hvn => by
    rw [List.cons_append]
    have hlw : ¬ (leadsWith v (c :: (n' ++ '>' :: y)) = true) := by
      intro hw
      have hp : v <+: ((c :: n') ++ '>' :: y) := by
        rw [List.cons_append]
        exact (leadsWith_iff _ _).mp hw
      exact hvn (prefix_stop_at_gt v (c :: n') y hgt hp).isInfix
    rw [replaceScan_cons_no_match _ sub c _ hv hlw, List.cons_append]
    exact congrArg _ (replaceScan_name v sub hv hgt n' y (fun hi => hvn (List.infix_cons hi)))

/-! ## Symbolic alternative lemmas -/

theorem reprL_append : ∀ (a b : List GSym), reprL (a ++ b) = reprL a ++ reprL b
  | [], _ => rfl
  | s :: a, b => by rw [List.cons_append, reprL, reprL, reprL_append a b, List.append_assoc]

theorem flatL_append (V : Str → Str) :
    ∀ (a b : List GSym), flatL V (a ++ b) = flatL V a ++ flatL V b
  | [], _ => rfl
  | s :: a, b => by rw [List.cons_append, flatL, flatL, flatL_append V a b, List.append_assoc]

theorem reprL_map_chr : ∀ v : Str, reprL (v.map GSym.chr) = v
  | [] => rfl
  | c :: v => by
    rw [List.map_cons, reprL, reprSym, reprL_map_chr v]
    rfl

theorem flatL_map_chr (V : Str → Str) : ∀ v : Str, flatL V (v.map GSym.chr) = v
  | [] => rfl
  | c :: v => by
    rw [List.map_cons, flatL, flatSym, flatL_map_chr V v]
    rfl

theorem toks_append : ∀ (a b : List GSym), toks (a ++ b) = toks a ++ toks b
  | [], _ => rfl
  | .chr _ :: a, b => by rw [List.cons_append, toks, toks, toks_append a b]
  | .tok n :: a, b => by rw [List.cons_append, toks, toks, toks_append a b, List.cons_append]

theorem mem_toks : ∀ (l : List GSym) (n : Str), n ∈ toks l ↔ GSym.tok n ∈ l
  | [], n => by simp [toks]
  | .chr c :: l, n => by
    rw [toks, List.mem_cons, mem_toks l n]
    simp
  | .tok m :: l, n => by
    rw [toks, List.mem_cons, List.mem_cons, mem_toks l n]
    constructor
    · rintro (rfl | h)
      · exact Or.inl rfl
      · exact Or.inr h
    · rintro (h | h)
      · exact Or.inl (by injection h)
      · exact Or.inr h

theorem toks_map_chr (v : Str) : toks (v.map GSym.chr) = [] := by
  induction v with
  | nil => rfl
  | cons c v ih => rw [List.map_cons, toks, ih]

theorem chrsFree_append {a b : List GSym} :
    chrsFree (a ++ b) ↔ chrsFree a ∧ chrsFree b := by
  rw [chrsFree, chrsFree, chrsFree]
  constructor
  · intro h
    exact ⟨fun c hc => h c (List.mem_append_left _ hc), fun c hc => h c (List.mem_append_right _ hc)⟩
  · rintro ⟨h1, h2⟩ c hc
    rcases List.mem_append.mp hc with hc | hc
    · exact h1 c hc
    · exact h2 c hc

theorem chrsFree_cons {s : GSym} {l : List GSym} :
    chrsFree (s :: l) ↔ (∀ c, s = GSym.chr c → c ≠ '<' ∧ c ≠ '>') ∧ chrsFree l := by
  rw [chrsFree, chrsFree]
  constructor
  · intro h
    exact ⟨fun c hc => h c (by rw [hc] at *; exact List.mem_cons_self _ _),
      fun c hc => h c (List.mem_cons_of_mem _ hc)⟩
  · rintro ⟨h1, h2⟩ c hc
    rcases List.mem_cons.mp hc with hc | hc
    · exact h1 c hc.symm
    · exact h2 c hc

theorem reprL_eq_flatL_no_toks (V : Str → Str) :
    ∀ l : List GSym, toks l = [] → reprL l = flatL V l
  | [], _ => rfl
  | .chr c :: l, h => by
    rw [reprL, flatL, reprSym, flatSym, reprL_eq_flatL_no_toks V l (by rw [toks] at h; exact h)]
  | .tok n :: l, h => by
    rw [toks] at h
    cases h

theorem prefix_chr_of_prefix_reprL :
    ∀ (v : Str), '<' ∉ v → ∀ l : List GSym, v <+: reprL l → (v.map GSym.chr) <+: l
  | [], _, l, _ => by simp
  | a :: v', hlt, l, h => by
    cases l with
    | nil =>
      rw [reprL] at h
      exact absurd (List.prefix_nil.mp h) (by simp)
    | cons s l' =>
      cases s with
      | chr c =>
        rw [reprL, reprSym, List.singleton_append] at h
        obtain ⟨hac, hp⟩ := List.cons_prefix_cons.mp h
        subst hac
        rw [List.map_cons]
        exact List.cons_prefix_cons.mpr
          ⟨rfl, prefix_chr_of_prefix_reprL v' (fun hc => hlt (List.mem_cons_of_mem _ hc)) l' hp⟩
      | tok n =>
        rw [reprL, reprSym, List.cons_append] at h
        obtain ⟨hac, _⟩ := List.cons_prefix_cons.mp h
        exact absurd (by rw [hac]; exact List.mem_cons_self '<' v') hlt

theorem prefix_reprL_of_prefix_chr (v : Str) (l : List GSym) (h : (v.map GSym.chr) <+: l) :
    v <+: reprL l := by
  obtain ⟨t, ht⟩ := h
  rw [← ht, reprL_append, reprL_map_chr]
  exact List.prefix_append v (reprL t)

theorem infix_append_left {l a b : Str} (h : l <:+: b) : l <:+: a ++ b := by
  obtain ⟨pre, post, hpp⟩ := h
  exact ⟨a ++ pre, post, by rw [← hpp]; simp [List.append_assoc]⟩

theorem drop_of_chr_prefix {v : Str} {s : GSym} {l' t : List GSym}
    (ht : v.map GSym.chr ++ t = s :: l') (hv : v ≠ []) :
    l'.drop (v.length - 1) = t ∧ t.length ≤ l'.length ∧ toks t = toks (s :: l') ∧ reprL (s :: l') = v ++ reprL t := by
  have hd : (s :: l').drop v.length = t := by
    rw [← ht, ← List.length_map v GSym.chr, List.drop_left]
  cases v with
  | nil => exact absurd rfl hv
  | cons a v' =>
    refine ⟨?_, ?_, ?_, ?_⟩
    · rw [List.length_cons, Nat.succ_sub_one]
      rw [List.length_cons, List.drop_succ_cons] at hd
      exact hd
    · have hlen := congrArg List.length ht
      rw [List.length_append, List.length_map, List.length_cons, List.length_cons] at hlen
      omega
    · rw [← ht, toks_append, toks_map_chr, List.nil_append]
    · rw [← ht, reprL_append, reprL_map_chr]

theorem symReplace_corr (v w : Str) (hv : v ≠ []) (hlt : '<' ∉ v) (hgt : '>' ∉ v) :
    ∀ (N : Nat) (l : List GSym), l.length ≤ N →
      (∀ n ∈ toks l, bracketFree n ∧ ¬ v <:+: n) →
      replaceScan v ('<' :: (w ++ ['>'])) (reprL l) = reprL (symReplace v w l) := by
  intro N
  induction N with
  | zero =>
    intro l hl _
    have : l = [] := List.length_eq_zero.mp (Nat.le_zero.mp hl)
    subst this
    rfl
  | succ N ih =>
    intro l hl hn
    cases l with
    | nil => rfl
    | cons s l' =>
      by_cases hm : leadsWith (v.map GSym.chr) (s :: l') = true
      · obtain ⟨t, ht⟩ := (leadsWith_iff _ _).mp hm
        obtain ⟨hdrop, hlen, htoks, hrepr⟩ := drop_of_chr_prefix ht hv
        rw [symReplace_cons, if_pos ⟨by simp [List.isEmpty_iff, hv], hm⟩, hdrop, hrepr]
        rw [replaceScan_prefix_match v _ (reprL t) hv, reprL, reprSym]
        rw [ih t (le_trans hlen (Nat.le_of_succ_le_succ hl))
          (fun n hmem => hn n (by rw [htoks] at hmem; exact hmem))]
      · rw [symReplace_cons, if_neg (fun hc => hm hc.2)]
        cases s with
        | chr c =>
          have hnolw : ¬ (leadsWith v (c :: reprL l') = true) := by
            intro hw
            refine hm ((leadsWith_iff _ _).mpr ?_)
            have := prefix_chr_of_prefix_reprL v hlt (GSym.chr c :: l')
              (by rw [reprL, reprSym, List.singleton_append]; exact (leadsWith_iff _ _).mp hw)
            exact this
          rw [reprL, reprSym, List.singleton_append]
          rw [replaceScan_cons_no_match v _ c _ hv hnolw]
          rw [ih l' (Nat.le_of_succ_le_succ hl)
            (fun n hmem => hn n (by rw [toks]; exact hmem))]
          rw [reprL, reprSym, List.singleton_append]
        | tok n =>
          obtain ⟨a, v', rfl⟩ : ∃ a v', v = a :: v' := by
            cases v with
            | nil => exact absurd rfl hv
            | cons a v' => exact ⟨a, v', rfl⟩
          have halt : a ≠ '<' := fun hc => hlt (by rw [← hc]; exact List.mem_cons_self a v')
          have hnprop := hn n (by rw [toks]; exact List.mem_cons_self n (toks l'))
          rw [reprL, reprSym, List.cons_append, List.append_assoc, List.singleton_append]
          rw [replaceScan_cons_no_match _ _ '<' _ (by simp)
            (leadsWith_false_of_head a v' '<' _ halt)]
          rw [replaceScan_name (a :: v') _ (by simp) hgt n _ hnprop.2]
          rw [ih l' (Nat.le_of_succ_le_succ hl)
            (fun m hmem => hn m (by rw [toks]; exact List.mem_cons_of_mem _ hmem))]
          rw [reprL, reprSym, List.cons_append, List.append_assoc, List.singleton_append]

theorem symReplace_flat (v w : Str) (hv : v ≠ []) (V : Str → Str) (hVw : V w = v) :
    ∀ (N : Nat) (l : List GSym), l.length ≤ N → flatL V (symReplace v w l) = flatL V l := by
  intro N
  induction N with
  | zero =>
    intro l hl
    have : l = [] := List.length_eq_zero.mp (Nat.le_zero.mp hl)
    subst this
    rfl
  | succ N ih =>
    intro l hl
    cases l with
    | nil => rfl
    | cons s l' =>
      by_cases hm : leadsWith (v.map GSym.chr) (s :: l') = true
      · obtain ⟨t, ht⟩ := (leadsWith_iff _ _).mp hm
        obtain ⟨hdrop, hlen, _, _⟩ := drop_of_chr_prefix ht hv
        rw [symReplace_cons, if_pos ⟨by simp [List.isEmpty_iff, hv], hm⟩, hdrop]
        rw [flatL, flatSym, hVw, ih t (le_trans hlen (Nat.le_of_succ_le_succ hl))]
        rw [← ht, flatL_append, flatL_map_chr]
      · rw [symReplace_cons, if_neg (fun hc => hm hc.2), flatL, flatL,
          ih l' (Nat.le_of_succ_le_succ hl)]

theorem symReplace_toks (v w : Str) :
    ∀ (N : Nat) (l : List GSym), l.length ≤ N →
      ∀ n ∈ toks (symReplace v w l), n = w ∨ n ∈ toks l := by
  intro N
  induction N with
  | zero =>
    intro l hl
    have : l = [] := List.length_eq_zero.mp (Nat.le_zero.mp hl)
    subst this
    intro n hn
    cases hn
  | succ N ih =>
    intro l hl n hn
    cases l with
    | nil => cases hn
    | cons s l' =>
      by_cases hm : (v.isEmpty = false ∧ leadsWith (v.map GSym.chr) (s :: l') = true)
      · rw [symReplace_cons, if_pos hm] at hn
        have hv : v ≠ [] := by
          intro hc
          rw [hc] at hm
          exact absurd hm.1 (by simp)
        obtain ⟨t, ht⟩ := (leadsWith_iff _ _).mp hm.2
        obtain ⟨hdrop, hlen, htoks, _⟩ := drop_of_chr_prefix ht hv
        rw [hdrop, toks, List.mem_cons] at hn
        rcases hn with rfl | hn
        · exact Or.inl rfl
        · rcases ih t (le_trans hlen (Nat.le_of_succ_le_succ hl)) n hn with h | h
          · exact Or.inl h
          · rw [htoks] at h
            exact Or.inr h
      · rw [symReplace_cons, if_neg hm] at hn
        cases s with
        | chr c =>
          rw [toks] at hn
          rcases ih l' (Nat.le_of_succ_le_succ hl) n hn with h | h
          · exact Or.inl h
          · exact Or.inr (by rw [toks]; exact h)
        | tok m =>
          rw [toks, List.mem_cons] at hn
          rcases hn with rfl | hn
          · exact Or.inr (by rw [toks]; exact List.mem_cons_self n (toks l'))
          · rcases ih l' (Nat.le_of_succ_le_succ hl) n hn with h | h
            · exact Or.inl h
            · exact Or.inr (by rw [toks]; exact List.mem_cons_of_mem _ h)

theorem symReplace_chrs (v w : Str) :
    ∀ (N : Nat) (l : List GSym), l.length ≤ N → chrsFree l → chrsFree (symReplace v w l) := by
  intro N
  induction N with
  | zero =>
    intro l hl _
    have : l = [] := List.length_eq_zero.mp (Nat.le_zero.mp hl)
    subst this
    intro c hc
    cases hc
  | succ N ih =>
    intro l hl hcf
    cases l with
    | nil => exact hcf
    | cons s l' =>
      by_cases hm : (v.isEmpty = false ∧ leadsWith (v.map GSym.chr) (s :: l') = true)
      · rw [symReplace_cons, if_pos hm]
        have hv : v ≠ [] := by
          intro hc
          rw [hc] at hm
          exact absurd hm.1 (by simp)
        obtain ⟨t, ht⟩ := (leadsWith_iff _ _).mp hm.2
        obtain ⟨hdrop, hlen, _, _⟩ := drop_of_chr_prefix ht hv
        rw [hdrop]
        refine chrsFree_cons.mpr ⟨?_, ?_⟩
        · intro c hc
          cases hc
        · refine ih t (le_trans hlen (Nat.le_of_succ_le_succ hl)) ?_
          have : chrsFree (v.map GSym.chr ++ t) := by rw [ht]; exact hcf
          exact (chrsFree_append.mp this).2
      · rw [symReplace_cons, if_neg hm]
        refine chrsFree_cons.mpr ⟨(chrsFree_cons.mp hcf).1, ?_⟩
        exact ih l' (Nat.le_of_succ_le_succ hl) (chrsFree_cons.mp hcf).2

theorem symReplace_no_occur (v w : Str) (_hv : v ≠ []) :
    ∀ (N : Nat) (l : List GSym), l.length ≤ N → ¬ v <:+: reprL l → symReplace v w l = l := by
  intro N
  induction N with
  | zero =>
    intro l hl _
    have : l = [] := List.length_eq_zero.mp (Nat.le_zero.mp hl)
    subst this
    rfl
  | succ N ih =>
    intro l hl hno
    cases l with
    | nil => rfl
    | cons s l' =>
      have hm : ¬ (leadsWith (v.map GSym.chr) (s :: l') = true) := by
        intro hw
        exact hno (prefix_reprL_of_prefix_chr v _ ((leadsWith_iff _ _).mp hw)).isInfix
      rw [symReplace_cons, if_neg (fun hc => hm hc.2)]
      refine congrArg _ (ih l' (Nat.le_of_succ_le_succ hl) (fun hi => hno ?_))
      rw [reprL]
      exact infix_append_left hi

theorem substTok_corr (n : Str) (hn : bracketFree n) (rep : List GSym) :
    ∀ l : List GSym, chrsFree l → (∀ m ∈ toks l, bracketFree m) →
      replaceScan ('<' :: (n ++ ['>'])) (reprL rep) (reprL l) = reprL (substTok n rep l)
  | [], _, _ => rfl
  | .chr c :: l', hcf, htk => by
    have hc := (chrsFree_cons.mp hcf).1 c rfl
    rw [substTok, reprL, reprSym, List.singleton_append]
    rw [replaceScan_cons_no_match _ _ c _ (by simp)
      (leadsWith_false_of_head '<' (n ++ ['>']) c _ (fun hlc => hc.1 hlc.symm))]
    rw [substTok_corr n hn rep l' (chrsFree_cons.mp hcf).2
      (fun m hm => htk m (by rw [toks]; exact hm))]
    rw [reprL, reprSym, List.singleton_append]
  | .tok m :: l', hcf, htk => by
    have hbm := htk m (by rw [toks]; exact List.mem_cons_self m (toks l'))
    by_cases hmn : m = n
    · subst hmn
      rw [substTok, if_pos rfl, reprL, reprSym]
      rw [replaceScan_prefix_match _ _ (reprL l') (by simp)]
      rw [substTok_corr m hn rep l' (chrsFree_cons.mp hcf).2
        (fun k hk => htk k (by rw [toks]; exact List.mem_cons_of_mem _ hk))]
      rw [reprL_append]
    · rw [substTok, if_neg hmn, reprL, reprSym, List.cons_append, List.append_assoc,
        List.singleton_append]
      have hlw : ¬ (leadsWith ('<' :: (n ++ ['>'])) ('<' :: (m ++ '>' :: reprL l')) = true) := by
        intro hw
        obtain ⟨_, hp⟩ := List.cons_prefix_cons.mp ((leadsWith_iff _ _).mp hw)
        exact hmn (tokenKey_prefix_name n m (reprL l') hn hbm hp).symm
      rw [replaceScan_cons_no_match _ _ '<' _ (by simp) hlw]
      rw [replaceScan_walk_lt (n ++ ['>']) (reprL rep) m ('>' :: reprL l')
        (fun c hc hceq => hbm.1 (by rw [← hceq]; exact hc))]
      rw [replaceScan_cons_no_match _ _ '>' _ (by simp)
        (leadsWith_false_of_head '<' (n ++ ['>']) '>' _ (by decide))]
      rw [substTok_corr n hn rep l' (chrsFree_cons.mp hcf).2
        (fun k hk => htk k (by rw [toks]; exact List.mem_cons_of_mem _ hk))]
      rw [reprL, reprSym, List.cons_append, List.append_assoc, List.singleton_append]

theorem substTok_flat (V : Str → Str) (n : Str) (rep : List GSym)
    (hrep : flatL V rep = V n) :
    ∀ l : List GSym, flatL V (substTok n rep l) = flatL V l
  | [] => rfl
  | .chr c :: l' => by
    rw [substTok, flatL, flatL, flatSym, substTok_flat V n rep hrep l']
  | .tok m :: l' => by
    by_cases hmn : m = n
    · subst hmn
      rw [substTok, if_pos rfl, flatL_append, hrep, flatL, flatSym,
        substTok_flat V m rep hrep l']
    · rw [substTok, if_neg hmn, flatL, flatL, flatSym, substTok_flat V n rep hrep l']

theorem substTok_toks (n : Str) (rep : List GSym) :
    ∀ l : List GSym, ∀ m ∈ toks (substTok n rep l), m ∈ toks rep ∨ (m ∈ toks l ∧ m ≠ n)
  | [], m, hm => by cases hm
  | .chr c :: l', m, hm => by
    rw [substTok, toks] at hm
    rcases substTok_toks n rep l' m hm with h | h
    · exact Or.inl h
    · exact Or.inr ⟨by rw [toks]; exact h.1, h.2⟩
  | .tok k :: l', m, hm => by
    by_cases hkn : k = n
    · subst hkn
      rw [substTok, if_pos rfl, toks_append] at hm
      rcases List.mem_append.mp hm with h | h
      · exact Or.inl h
      · rcases substTok_toks k rep l' m h with h2 | h2
        · exact Or.inl h2
        · exact Or.inr ⟨by rw [toks]; exact List.mem_cons_of_mem _ h2.1, h2.2⟩
    · rw [substTok, if_neg hkn, toks, List.mem_cons] at hm
      rcases hm with rfl | h
      · exact Or.inr ⟨by rw [toks]; exact List.mem_cons_self m (toks l'), hkn⟩
      · rcases substTok_toks n rep l' m h with h2 | h2
        · exact Or.inl h2
        · exact Or.inr ⟨by rw [toks]; exact List.mem_cons_of_mem _ h2.1, h2.2⟩

theorem substTok_chrs (n : Str) (rep : List GSym) (hrep : chrsFree rep) :
    ∀ l : List GSym, chrsFree l → chrsFree (substTok n rep l)
  | [], h => h
  | .chr c :: l', h => by
    rw [substTok]
    exact chrsFree_cons.mpr ⟨(chrsFree_cons.mp h).1,
      substTok_chrs n rep hrep l' (chrsFree_cons.mp h).2⟩
  | .tok k :: l', h => by
    by_cases hkn : k = n
    · subst hkn
      rw [substTok, if_pos rfl]
      exact chrsFree_append.mpr ⟨hrep, substTok_chrs k rep hrep l' (chrsFree_cons.mp h).2⟩
    · rw [substTok, if_neg hkn]
      refine chrsFree_cons.mpr ⟨?_, substTok_chrs n rep hrep l' (chrsFree_cons.mp h).2⟩
      intro c hc
      cases hc

theorem token_infix_toks (n : Str) (hn : bracketFree n) :
    ∀ l : List GSym, chrsFree l → (∀ m ∈ toks l, bracketFree m) →
      containsSub ('<' :: (n ++ ['>'])) (reprL l) = true → n ∈ toks l
  | [], _, _, h => by
    rw [reprL, containsSub] at h
    cases h
  | .chr c :: l', hcf, htk, h => by
    have hc := (chrsFree_cons.mp hcf).1 c rfl
    rw [reprL, reprSym, List.singleton_append,
      containsSub_cons_walk _ c _
        (leadsWith_false_of_head '<' (n ++ ['>']) c _ (fun hlc => hc.1 hlc.symm))] at h
    rw [toks]
    exact token_infix_toks n hn l' (chrsFree_cons.mp hcf).2
      (fun m hm => htk m (by rw [toks]; exact hm)) h
  | .tok m :: l', hcf, htk, h => by
    have hbm := htk m (by rw [toks]; exact List.mem_cons_self m (toks l'))
    by_cases hmn : m = n
    · subst hmn
      rw [toks]
      exact List.mem_cons_self m (toks l')
    · rw [reprL, reprSym, List.cons_append, List.append_assoc, List.singleton_append] at h
      have hlw : ¬ (leadsWith ('<' :: (n ++ ['>'])) ('<' :: (m ++ '>' :: reprL l')) = true) := by
        intro hw
        obtain ⟨_, hp⟩ := List.cons_prefix_cons.mp ((leadsWith_iff _ _).mp hw)
        exact hmn (tokenKey_prefix_name n m (reprL l') hn hbm hp).symm
      rw [containsSub_cons_walk _ '<' _ hlw,
        containsSub_walk_lt (n ++ ['>']) m ('>' :: reprL l')
          (fun c hc hceq => hbm.1 (by rw [← hceq]; exact hc)),
        containsSub_cons_walk _ '>' _
          (leadsWith_false_of_head '<' (n ++ ['>']) '>' _ (by decide))] at h
      rw [toks]
      exact List.mem_cons_of_mem _ (token_infix_toks n hn l' (chrsFree_cons.mp hcf).2
        (fun k hk => htk k (by rw [toks]; exact List.mem_cons_of_mem _ hk)) h)

/-! ## The expansion of a synthesized grammar -/

theorem specOK_names_bracketFree (V : Str → Str) :
    ∀ rs : List RuleSpec, specOK V rs → ∀ m ∈ rs.map RuleSpec.name, bracketFree m
  | [], _, m, hm => by cases hm
  | r :: rs, h, m, hm => by
    rw [List.map_cons, List.mem_cons] at hm
    rcases hm with rfl | hm
    · exact h.1
    · exact specOK_names_bracketFree V rs h.2.2.2.2.2 m hm

theorem expand_fold (V : Str → Str) :
    ∀ (rs : List RuleSpec) (x : List GSym), specOK V rs → chrsFree x →
      (∀ m ∈ toks x, m ∈ rs.map RuleSpec.name) →
      (rulesToGrammar rs).foldl
        (fun acc e => if e.1 = START_SYMBOL then acc else pyReplace e.1 (e.2.headD []) acc)
        (reprL x) = flatL V x
  | [], x, _, _, htk => by
    rw [rulesToGrammar, List.map_nil, List.foldl_nil]
    refine reprL_eq_flatL_no_toks V x ?_
    cases htoks : toks x with
    | nil => rfl
    | cons m ms => exact absurd (htk m (by rw [htoks]; exact List.mem_cons_self m ms)) (by simp)
  | r :: rs, x, hok, hcf, htk => by
    rw [rulesToGrammar, List.map_cons, List.foldl_cons]
    dsimp only
    rw [if_neg hok.2.2.2.2.1]
    rw [pyReplace, if_neg (by simp [List.isEmpty_iff, ruleKey])]
    rw [show ruleKey r.name = '<' :: (r.name ++ ['>']) from rfl, List.headD_cons]
    rw [substTok_corr r.name hok.1 r.sym x hcf
      (fun m hm => specOK_names_bracketFree V (r :: rs) hok m (htk m hm))]
    have hstep : (rulesToGrammar rs).foldl
        (fun acc e => if e.1 = START_SYMBOL then acc else pyReplace e.1 (e.2.headD []) acc)
        (reprL (substTok r.name r.sym x)) = flatL V (substTok r.name r.sym x) := by
      refine expand_fold V rs (substTok r.name r.sym x) hok.2.2.2.2.2
        (substTok_chrs _ _ hok.2.1 x hcf) ?_
      intro m hm
      rcases substTok_toks r.name r.sym x m hm with h | h
      · exact hok.2.2.2.1 m h
      · have := htk m h.1
        rw [List.map_cons, List.mem_cons] at this
        exact this.resolve_left h.2
    rw [rulesToGrammar] at hstep
    rw [hstep]
    exact substTok_flat V r.name r.sym hok.2.2.1 x

/-! ## The scanning pass of `get_grammar` -/

theorem rulesToGrammar_cons (r : RuleSpec) (rs : List RuleSpec) :
    rulesToGrammar (r :: rs) = (ruleKey r.name, [reprL r.sym]) :: rulesToGrammar rs := rfl

theorem scanAlts_single (v ntk x : Str) (hv : v ≠ []) :
    scanAlts v ntk [x] = ([pyReplace v ntk x], if containsSub v x = true then 1 else 0) := by
  rw [scanAlts, scanAlts]
  cases hc : containsSub v x with
  | true => simp
  | false =>
    simp only [Bool.false_eq_true, if_false]
    rw [pyReplace_no_occur v ntk x hv
      (fun hi => by rw [(containsSub_iff v x).mpr hi] at hc; cases hc)]

theorem pyReplace_reprL (v w : Str) (hv : v ≠ []) (hlt : '<' ∉ v) (hgt : '>' ∉ v)
    (l : List GSym) (hl : ∀ n ∈ toks l, bracketFree n ∧ ¬ v <:+: n) :
    pyReplace v (ruleKey w) (reprL l) = reprL (symReplace v w l) := by
  rw [pyReplace, if_neg (by simp [List.isEmpty_iff, hv])]
  exact symReplace_corr v w hv hlt hgt l.length l (le_refl _) hl

theorem scanGrammar_rules (v w : Str) (hv : v ≠ []) (hlt : '<' ∉ v) (hgt : '>' ∉ v) :
    ∀ rs : List RuleSpec, (∀ r ∈ rs, ∀ n ∈ toks r.sym, bracketFree n ∧ ¬ v <:+: n) →
      ∃ c : Nat,
        scanGrammar v (ruleKey w) (rulesToGrammar rs) =
          (rulesToGrammar (rs.map fun r => ⟨r.name, symReplace v w r.sym⟩), c) ∧
        (c = 0 → ∀ r ∈ rs, ¬ v <:+: reprL r.sym)
  | [], _ => ⟨0, rfl, fun _ r hr => absurd hr (List.not_mem_nil r)⟩
  | r :: rs, h => by
    obtain ⟨c', hc', h0'⟩ := scanGrammar_rules v w hv hlt hgt rs
      (fun r' hr' => h r' (List.mem_cons_of_mem _ hr'))
    refine ⟨(if containsSub v (reprL r.sym) = true then 1 else 0) + c', ?_, ?_⟩
    · rw [rulesToGrammar_cons, scanGrammar]
      rw [scanAlts_single v _ _ hv, hc']
      dsimp only
      rw [pyReplace_reprL v w hv hlt hgt r.sym (h r (List.mem_cons_self r rs)),
        List.map_cons, rulesToGrammar_cons]
    · intro hsum
      have h1 : (if containsSub v (reprL r.sym) = true then 1 else 0) = 0 := by omega
      have h2 : c' = 0 := by omega
      intro r' hr'
      rcases List.mem_cons.mp hr' with rfl | hr'
      · intro hi
        rw [(containsSub_iff v (reprL r'.sym)).mpr hi] at h1
        simp at h1
      · exact h0' h2 r' hr'

theorem scanGrammar_sym (v w : Str) (hv : v ≠ []) (hlt : '<' ∉ v) (hgt : '>' ∉ v)
    (s0 : List GSym) (hs0 : ∀ n ∈ toks s0, bracketFree n ∧ ¬ v <:+: n)
    (rs : List RuleSpec) (hrs : ∀ r ∈ rs, ∀ n ∈ toks r.sym, bracketFree n ∧ ¬ v <:+: n) :
    ∃ c : Nat,
      scanGrammar v (ruleKey w) ((START_SYMBOL, [reprL s0]) :: rulesToGrammar rs) =
        ((START_SYMBOL, [reprL (symReplace v w s0)]) ::
          rulesToGrammar (rs.map fun r => ⟨r.name, symReplace v w r.sym⟩), c) ∧
      (c = 0 → ¬ v <:+: reprL s0 ∧ ∀ r ∈ rs, ¬ v <:+: reprL r.sym) := by
  obtain ⟨c', hc', h0'⟩ := scanGrammar_rules v w hv hlt hgt rs hrs
  refine ⟨(if containsSub v (reprL s0) = true then 1 else 0) + c', ?_, ?_⟩
  · rw [scanGrammar]
    rw [scanAlts_single v _ _ hv, hc']
    dsimp only
    rw [pyReplace_reprL v w hv hlt hgt s0 hs0]
  · intro hsum
    have h01 : (if containsSub v (reprL s0) = true then 1 else 0) = 0 := by omega
    have h2 : c' = 0 := by omega
    refine ⟨?_, h0' h2⟩
    intro hi
    rw [(containsSub_iff v (reprL s0)).mpr hi] at h01
    simp at h01

theorem scanTraces_cons (var value : Str) (rest : Traces) (g : Grammar) :
    scanTraces ((var, value) :: rest) g =
      ((scanTraces rest (scanGrammar value (nonterminal var) g).1).1,
        List.replicate (scanGrammar value (nonterminal var) g).2
          (var, nonterminal var, value) ++
          (scanTraces rest (scanGrammar value (nonterminal var) g).1).2) := rfl

theorem joinReplicate_cons (p : Str × Str) (ps : Traces) (c : Nat) (cs : List Nat) :
    joinReplicate (p :: ps) (c :: cs) =
      List.replicate c (p.1, nonterminal p.1, p.2) ++ joinReplicate ps cs := rfl

theorem matchedOf_cons (p : Str × Str) (ps : Traces) (c : Nat) (cs : List Nat) :
    matchedOf (p :: ps) (c :: cs) =
      if c = 0 then matchedOf ps cs else p :: matchedOf ps cs := rfl

theorem scanTraces_sym (Vf : Str → Str) (NAMES : List Str)
    (hN : ∀ m ∈ NAMES, bracketFree m) :
    ∀ (obs : Traces) (s0 : List GSym) (rs : List RuleSpec),
      (∀ p ∈ obs, p.2 ≠ [] ∧ '<' ∉ p.2 ∧ '>' ∉ p.2 ∧ lowerStr p.1 ∈ NAMES ∧
        Vf (lowerStr p.1) = p.2) →
      (∀ p ∈ obs, ∀ m ∈ NAMES, ¬ p.2 <:+: m) →
      chrsFree s0 → (∀ m ∈ toks s0, m ∈ NAMES) →
      (∀ r ∈ rs, chrsFree r.sym ∧ ∀ m ∈ toks r.sym, m ∈ NAMES) →
      ∃ (s0' : List GSym) (rs' : List RuleSpec) (cs : List Nat),
        scanTraces obs ((START_SYMBOL, [reprL s0]) :: rulesToGrammar rs) =
          ((START_SYMBOL, [reprL s0']) :: rulesToGrammar rs', joinReplicate obs cs) ∧
        cs.length = obs.length ∧
        chrsFree s0' ∧
        flatL Vf s0' = flatL Vf s0 ∧
        (∀ m ∈ toks s0', m ∈ toks s0 ∨
          m ∈ (matchedOf obs cs).map (fun p => lowerStr p.1)) ∧
        List.Forall₂ (ruleRel Vf ((matchedOf obs cs).map (fun p => lowerStr p.1))) rs rs' ∧
        List.Sublist (matchedOf obs cs) obs
  | [], s0, rs, _, _, hcf, _, hrs => by
    refine ⟨s0, rs, [], rfl, rfl, hcf, rfl, fun m hm => Or.inl hm, ?_, List.Sublist.refl _⟩
    refine List.forall₂_same.mpr (fun r hr => ?_)
    exact ⟨rfl, (hrs r hr).1, rfl, fun m hm => Or.inl hm⟩
  | (pv, pval) :: obs', s0, rs, hobs, hinf, hcf, htk, hrs => by
    obtain ⟨hvne, hvlt, hvgt, hnmem, hVf⟩ := hobs (pv, pval) (List.mem_cons_self _ obs')
    have hs0c : ∀ n ∈ toks s0, bracketFree n ∧ ¬ pval <:+: n := fun n hn =>
      ⟨hN n (htk n hn), hinf (pv, pval) (List.mem_cons_self _ obs') n (htk n hn)⟩
    have hrsc : ∀ r ∈ rs, ∀ n ∈ toks r.sym, bracketFree n ∧ ¬ pval <:+: n := fun r hr n hn =>
      ⟨hN n ((hrs r hr).2 n hn),
        hinf (pv, pval) (List.mem_cons_self _ obs') n ((hrs r hr).2 n hn)⟩
    obtain ⟨c, hscan, h0⟩ :=
      scanGrammar_sym pval (lowerStr pv) hvne hvlt hvgt s0 hs0c rs hrsc
    have hntk : nonterminal pv = ruleKey (lowerStr pv) := rfl
    have hobs' := fun q hq => hobs q (List.mem_cons_of_mem _ hq)
    have hinf' := fun q hq => hinf q (List.mem_cons_of_mem _ hq)
    by_cases hc0 : c = 0
    · subst hc0
      obtain ⟨hno0, hnors⟩ := h0 rfl
      have hid0 : symReplace pval (lowerStr pv) s0 = s0 :=
        symReplace_no_occur pval (lowerStr pv) hvne s0.length s0 (le_refl _) hno0
      have hidrs : (rs.map fun r => ⟨r.name, symReplace pval (lowerStr pv) r.sym⟩) = rs := by
        have hcongr : ∀ r ∈ rs,
            (⟨r.name, symReplace pval (lowerStr pv) r.sym⟩ : RuleSpec) = r := fun r hr => by
          rw [symReplace_no_occur pval (lowerStr pv) hvne r.sym.length r.sym (le_refl _)
            (hnors r hr)]
        rw [List.map_congr_left hcongr]
        exact List.map_id' rs
      obtain ⟨s0', rs', cs', heq, hlen, hcf', hflat', htk', hfa', hsub'⟩ :=
        scanTraces_sym Vf NAMES hN obs' s0 rs hobs' hinf' hcf htk hrs
      refine ⟨s0', rs', 0 :: cs', ?_, ?_, hcf', hflat', ?_, ?_, ?_⟩
      · rw [scanTraces_cons, joinReplicate_cons, hntk, hscan]
        dsimp only
        rw [hid0, hidrs, heq]
      · rw [List.length_cons, List.length_cons, hlen]
      · rw [matchedOf_cons, if_pos rfl]
        exact htk'
      · rw [matchedOf_cons, if_pos rfl]
        exact hfa'
      · rw [matchedOf_cons, if_pos rfl]
        exact hsub'.cons _
    · have hchr1 : chrsFree (symReplace pval (lowerStr pv) s0) :=
        symReplace_chrs pval (lowerStr pv) s0.length s0 (le_refl _) hcf
      have htk1 : ∀ m ∈ toks (symReplace pval (lowerStr pv) s0), m ∈ NAMES := by
        intro m hm
        rcases symReplace_toks pval (lowerStr pv) s0.length s0 (le_refl _) m hm with h | h
        · rw [h]; exact hnmem
        · exact htk m h
      have hrs1 : ∀ r1 ∈ (rs.map fun r =>
            (⟨r.name, symReplace pval (lowerStr pv) r.sym⟩ : RuleSpec)),
          chrsFree r1.sym ∧ ∀ m ∈ toks r1.sym, m ∈ NAMES := by
        intro r1 hr1
        obtain ⟨r, hr, hfr⟩ := List.mem_map.mp hr1
        subst hfr
        refine ⟨symReplace_chrs pval (lowerStr pv) r.sym.length r.sym (le_refl _)
          (hrs r hr).1, ?_⟩
        intro m hm
        rcases symReplace_toks pval (lowerStr pv) r.sym.length r.sym (le_refl _) m hm with h | h
        · rw [h]; exact hnmem
        · exact (hrs r hr).2 m h
      obtain ⟨s0', rs', cs', heq, hlen, hcf', hflat', htk', hfa', hsub'⟩ :=
        scanTraces_sym Vf NAMES hN obs' (symReplace pval (lowerStr pv) s0)
          (rs.map fun r => ⟨r.name, symReplace pval (lowerStr pv) r.sym⟩)
          hobs' hinf' hchr1 htk1 hrs1
      refine ⟨s0', rs', c :: cs', ?_, ?_, hcf', ?_, ?_, ?_, ?_⟩
      · rw [scanTraces_cons, joinReplicate_cons, hntk, hscan]
        dsimp only
        rw [heq]
      · rw [List.length_cons, List.length_cons, hlen]
      · rw [hflat', symReplace_flat pval (lowerStr pv) hvne Vf hVf s0.length s0 (le_refl _)]
      · rw [matchedOf_cons, if_neg hc0]
        intro m hm
        rcases htk' m hm with h | h
        · rcases symReplace_toks pval (lowerStr pv) s0.length s0 (le_refl _) m h with h2 | h2
          · right
            rw [List.map_cons, h2]
            exact List.mem_cons_self _ _
          · left
            exact h2
        · right
          rw [List.map_cons]
          exact List.mem_cons_of_mem _ h
      · rw [matchedOf_cons, if_neg hc0]
        refine List.Forall₂.imp ?_ (List.forall₂_map_left_iff.mp hfa')
        intro r r' hr
        dsimp only [ruleRel] at hr ⊢
        obtain ⟨hname, hchr, hflat, htks⟩ := hr
        refine ⟨hname, hchr, ?_, ?_⟩
        · rw [hflat,
            symReplace_flat pval (lowerStr pv) hvne Vf hVf r.sym.length r.sym (le_refl _)]
        · intro m hm
          rcases htks m hm with h | h
          · rcases symReplace_toks pval (lowerStr pv) r.sym.length r.sym (le_refl _) m h
              with h2 | h2
            · right
              rw [List.map_cons, h2]
              exact List.mem_cons_self _ _
            · left
              exact h2
          · right
            rw [List.map_cons]
            exact List.mem_cons_of_mem _ h
      · rw [matchedOf_cons, if_neg hc0]
        exact hsub'.cons₂ _

theorem pyDictInsert_fresh {β : Type} (d : List (Str × β)) (k : Str) (v : β)
    (h : k ∉ d.map Prod.fst) : pyDictInsert d k v = d ++ [(k, v)] := by
  rw [pyDictInsert, if_neg h]

theorem pyDictDelete_mem {β : Type} (d : List (Str × β)) (k : Str) (h : k ∈ d.map Prod.fst) :
    pyDictDelete d k = some (d.filter fun e => decide (e.1 ≠ k)) := by
  rw [pyDictDelete, if_pos h]

theorem pyDictDelete_not_mem {β : Type} (d : List (Str × β)) (k : Str)
    (h : k ∉ d.map Prod.fst) : pyDictDelete d k = none := by
  rw [pyDictDelete, if_neg h]

theorem key_not_mem_filter {β : Type} (d : List (Str × β)) (k : Str) :
    k ∉ (d.filter fun e => decide (e.1 ≠ k)).map Prod.fst := by
  intro hc
  obtain ⟨e, he, hek⟩ := List.mem_map.mp hc
  have hne := List.of_mem_filter he
  rw [decide_eq_true_iff] at hne
  exact hne hek

theorem key_mem_filter_ne {β : Type} (d : List (Str × β)) (k k' : Str) (hne : k' ≠ k)
    (h : k' ∈ d.map Prod.fst) :
    k' ∈ (d.filter fun e => decide (e.1 ≠ k)).map Prod.fst := by
  obtain ⟨e, he, hek⟩ := List.mem_map.mp h
  refine List.mem_map.mpr ⟨e, List.mem_filter.mpr ⟨he, ?_⟩, hek⟩
  rw [decide_eq_true_iff, hek]
  exact hne

theorem filter_key_cons {β : Type} (tr : List (Str × β)) (k : Str) (ks : List Str) :
    ((tr.filter fun e => decide (e.1 ≠ k)).filter fun e => decide (e.1 ∉ ks)) =
      tr.filter fun e => decide (e.1 ∉ k :: ks) := by
  rw [List.filter_filter]
  refine List.filter_congr (fun e _ => ?_)
  by_cases h1 : e.1 = k <;> by_cases h2 : e.1 ∈ ks <;> simp [h1, h2]

theorem filter_keys_append {β : Type} (T : List (Str × β)) (a b : List Str) :
    ((T.filter fun e => decide (e.1 ∉ a)).filter fun e => decide (e.1 ∉ b)) =
      T.filter fun e => decide (e.1 ∉ a ++ b) := by
  rw [List.filter_filter]
  refine List.filter_congr (fun e _ => ?_)
  by_cases h1 : e.1 ∈ a <;> by_cases h2 : e.1 ∈ b <;> simp [h1, h2]

theorem matchedOf_nil_left (cs : List Nat) : matchedOf [] cs = [] := by cases cs <;> rfl

theorem matchedOf_nil_right (ps : Traces) : matchedOf ps [] = [] := by cases ps <;> rfl

theorem joinReplicate_nil_left (cs : List Nat) : joinReplicate [] cs = [] := by
  cases cs <;> rfl

theorem joinReplicate_nil_right (ps : Traces) : joinReplicate ps [] = [] := by
  cases ps <;> rfl

theorem matchedOf_nil_of_join : ∀ (ps : Traces) (cs : List Nat),
    joinReplicate ps cs = [] → matchedOf ps cs = []
  | [], cs, _ => matchedOf_nil_left cs
  | _ :: _, [], _ => rfl
  | p :: ps, c :: cs, h => by
    rw [joinReplicate_cons] at h
    obtain ⟨h1, h2⟩ := List.append_eq_nil.mp h
    have hc : c = 0 := by
      cases c with
      | zero => rfl
      | succ n => exact absurd h1 (by simp [List.replicate_succ])
    rw [matchedOf_cons, hc, if_pos rfl]
    exact matchedOf_nil_of_join ps cs h2

theorem applyNewRules_cons_del (var ntk value : Str) (rest : List (Str × Str × Str))
    (g : Grammar) (tr tr' : Traces) (h : pyDictDelete tr var = some tr') :
    applyNewRules ((var, ntk, value) :: rest) g tr =
      applyNewRules rest (pyDictInsert g ntk [value]) tr' := by
  rw [applyNewRules, h]

theorem applyNewRules_cons_err (var ntk value : Str) (rest : List (Str × Str × Str))
    (g : Grammar) (tr : Traces) (h : pyDictDelete tr var = none) :
    applyNewRules ((var, ntk, value) :: rest) g tr = .error .keyError := by
  rw [applyNewRules, h]

theorem applyNewRules_no_fuel_err :
    ∀ (entries : List (Str × Str × Str)) (g : Grammar) (tr : Traces),
      applyNewRules entries g tr ≠ .error .outOfFuel
  | [], _, _, h => Except.noConfusion h
  | (var, ntk, value) :: rest, g, tr, h => by
    cases hd : pyDictDelete tr var with
    | none =>
      rw [applyNewRules_cons_err var ntk value rest g tr hd] at h
      exact PyErr.noConfusion (Except.error.inj h)
    | some tr' =>
      rw [applyNewRules_cons_del var ntk value rest g tr tr' hd] at h
      exact applyNewRules_no_fuel_err rest _ tr' h

theorem applyNewRules_ok_le :
    ∀ (entries : List (Str × Str × Str)) (g : Grammar) (tr : Traces) (g2 : Grammar)
      (tr2 : Traces), applyNewRules entries g tr = .ok (g2, tr2) → tr2.length ≤ tr.length
  | [], _, tr, _, tr2, h => by
    injection h with h2
    injection h2 with _ ht
    rw [← ht]
  | (var, ntk, value) :: rest, g, tr, g2, tr2, h => by
    cases hd : pyDictDelete tr var with
    | none =>
      rw [applyNewRules_cons_err var ntk value rest g tr hd] at h
      exact absurd h (by simp)
    | some tr' =>
      rw [applyNewRules_cons_del var ntk value rest g tr tr' hd] at h
      have h1 := applyNewRules_ok_le rest (pyDictInsert g ntk [value]) tr' g2 tr2 h
      have h2 : tr'.length ≤ tr.length := by
        rw [pyDictDelete] at hd
        by_cases hm : var ∈ tr.map Prod.fst
        · rw [if_pos hm] at hd
          injection hd with hd
          rw [← hd]
          exact List.length_filter_le _ _
        · rw [if_neg hm] at hd
          exact absurd hd (by simp)
      exact le_trans h1 h2

theorem applyNewRules_ok_lt (var ntk value : Str) (rest : List (Str × Str × Str))
    (g : Grammar) (tr : Traces) (g2 : Grammar) (tr2 : Traces)
    (h : applyNewRules ((var, ntk, value) :: rest) g tr = .ok (g2, tr2)) :
    tr2.length < tr.length := by
  cases hd : pyDictDelete tr var with
  | none =>
    rw [applyNewRules_cons_err var ntk value rest g tr hd] at h
    exact absurd h (by simp)
  | some tr' =>
    rw [applyNewRules_cons_del var ntk value rest g tr tr' hd] at h
    have h1 := applyNewRules_ok_le rest (pyDictInsert g ntk [value]) tr' g2 tr2 h
    have h2 : tr'.length < tr.length := by
      rw [pyDictDelete] at hd
      by_cases hm : var ∈ tr.map Prod.fst
      · rw [if_pos hm] at hd
        injection hd with hd
        rw [← hd]
        obtain ⟨e, he, hek⟩ := List.mem_map.mp hm
        refine List.length_filter_lt_length_iff_exists.mpr ⟨e, he, ?_⟩
        simp [hek]
      · rw [if_neg hm] at hd
        exact absurd hd (by simp)
    exact lt_of_le_of_lt h1 h2

theorem applyNewRules_sym :
    ∀ (ps : Traces) (cs : List Nat) (g : Grammar) (tr : Traces) (g2 : Grammar) (tr2 : Traces),
      ((matchedOf ps cs).map Prod.fst).Nodup →
      (∀ p ∈ matchedOf ps cs, p.1 ∈ tr.map Prod.fst) →
      (∀ p ∈ matchedOf ps cs, nonterminal p.1 ∉ g.map Prod.fst) →
      ((matchedOf ps cs).map fun p => nonterminal p.1).Nodup →
      applyNewRules (joinReplicate ps cs) g tr = .ok (g2, tr2) →
      g2 = g ++ (matchedOf ps cs).map (fun p => (nonterminal p.1, [p.2])) ∧
      tr2 = tr.filter fun e => decide (e.1 ∉ (matchedOf ps cs).map Prod.fst)
  | [], cs, g, tr, g2, tr2, _, _, _, _, hok => by
    rw [joinReplicate_nil_left, applyNewRules] at hok
    injection hok with h2
    injection h2 with hg ht
    rw [← hg, ← ht, matchedOf_nil_left]
    simp
  | p :: ps, [], g, tr, g2, tr2, _, _, _, _, hok => by
    rw [joinReplicate_nil_right, applyNewRules] at hok
    injection hok with h2
    injection h2 with hg ht
    rw [← hg, ← ht, matchedOf_nil_right]
    simp
  | p :: ps, c :: cs, g, tr, g2, tr2, hnd, hkeys, hfresh, hndk, hok => by
    rcases c with _ | (_ | c')
    · rw [joinReplicate_cons,
        show List.replicate 0 (p.1, nonterminal p.1, p.2) = [] from rfl,
        List.nil_append] at hok
      rw [matchedOf_cons, if_pos rfl] at hnd hkeys hfresh hndk ⊢
      exact applyNewRules_sym ps cs g tr g2 tr2 hnd hkeys hfresh hndk hok
    · have h10 : ¬((0 : Nat) + 1 = 0) := by omega
      rw [matchedOf_cons, if_neg h10] at hnd hkeys hfresh hndk ⊢
      rw [joinReplicate_cons,
        show List.replicate (0 + 1) (p.1, nonterminal p.1, p.2) =
          [(p.1, nonterminal p.1, p.2)] from rfl, List.singleton_append] at hok
      have hmem : (p.1 : Str) ∈ tr.map Prod.fst :=
        hkeys p (List.mem_cons_self _ _)
      rw [applyNewRules_cons_del p.1 (nonterminal p.1) p.2 _ g tr _
        (pyDictDelete_mem tr p.1 hmem)] at hok
      rw [pyDictInsert_fresh g _ _ (hfresh p (List.mem_cons_self _ _))] at hok
      rw [List.map_cons] at hnd hndk
      have hndt := (List.nodup_cons.mp hnd).2
      have hp1nm := (List.nodup_cons.mp hnd).1
      have hkeys' : ∀ q ∈ matchedOf ps cs,
          q.1 ∈ (tr.filter fun e => decide (e.1 ≠ p.1)).map Prod.fst := by
        intro q hq
        refine key_mem_filter_ne tr p.1 q.1 ?_ (hkeys q (List.mem_cons_of_mem _ hq))
        intro hqe
        exact hp1nm (hqe ▸ List.mem_map_of_mem Prod.fst hq)
      have hfresh' : ∀ q ∈ matchedOf ps cs,
          nonterminal q.1 ∉ (g ++ [(nonterminal p.1, [p.2])]).map Prod.fst := by
        intro q hq hc
        rw [List.map_append, List.mem_append] at hc
        rcases hc with hc | hc
        · exact hfresh q (List.mem_cons_of_mem _ hq) hc
        · have heq2 : nonterminal q.1 = nonterminal p.1 := by simpa using hc
          exact (List.nodup_cons.mp hndk).1
            (heq2 ▸ List.mem_map_of_mem (fun q => nonterminal q.1) hq)
      have hndk' := (List.nodup_cons.mp hndk).2
      obtain ⟨hg2, htr2⟩ := applyNewRules_sym ps cs (g ++ [(nonterminal p.1, [p.2])])
        (tr.filter fun e => decide (e.1 ≠ p.1)) g2 tr2 hndt hkeys' hfresh' hndk' hok
      constructor
      · rw [hg2, List.append_assoc, List.singleton_append, List.map_cons]
      · rw [htr2, filter_key_cons, List.map_cons]
    · exfalso
      have hc2 : (c' + 1 + 1 : Nat) ≠ 0 := by omega
      rw [matchedOf_cons, if_neg hc2] at hkeys
      rw [joinReplicate_cons,
        show List.replicate (c' + 1 + 1) (p.1, nonterminal p.1, p.2) =
          (p.1, nonterminal p.1, p.2) :: (p.1, nonterminal p.1, p.2) ::
            List.replicate c' (p.1, nonterminal p.1, p.2) from rfl,
        List.cons_append, List.cons_append] at hok
      have hmem : (p.1 : Str) ∈ tr.map Prod.fst :=
        hkeys p (List.mem_cons_self _ _)
      rw [applyNewRules_cons_del p.1 (nonterminal p.1) p.2 _ g tr _
        (pyDictDelete_mem tr p.1 hmem)] at hok
      have hnone : pyDictDelete (tr.filter fun e => decide (e.1 ≠ p.1)) p.1 = none :=
        pyDictDelete_not_mem _ _ (key_not_mem_filter tr p.1)
      rw [applyNewRules_cons_err p.1 _ p.2 _ _ _ hnone] at hok
      exact Except.noConfusion hok

theorem mkV_eq : ∀ (T : Traces), (T.map fun p => lowerStr p.1).Nodup →
    ∀ p ∈ T, mkV T (lowerStr p.1) = p.2
  | [], _, p, hp => absurd hp (List.not_mem_nil p)
  | q :: T, hnd, p, hp => by
    rw [List.map_cons] at hnd
    show (pyLookup (((q :: T).map fun p => (lowerStr p.1, p.2))) (lowerStr p.1)).getD [] = p.2
    rw [List.map_cons, pyLookup]
    by_cases he : lowerStr q.1 = lowerStr p.1
    · rw [if_pos he]
      rcases List.mem_cons.mp hp with rfl | hp'
      · rfl
      · exact absurd (he.symm ▸ List.mem_map_of_mem (fun p => lowerStr p.1) hp')
          (List.nodup_cons.mp hnd).1
    · rw [if_neg he]
      rcases List.mem_cons.mp hp with rfl | hp'
      · exact absurd rfl he
      · exact mkV_eq T (List.nodup_cons.mp hnd).2 p hp'

theorem specOK_mem (V : Str → Str) :
    ∀ rs : List RuleSpec, specOK V rs → ∀ r ∈ rs,
      bracketFree r.name ∧ chrsFree r.sym ∧ flatL V r.sym = V r.name ∧
        (∀ m ∈ toks r.sym, m ∈ rs.map RuleSpec.name) ∧ ruleKey r.name ≠ START_SYMBOL
  | [], _, r, hr => absurd hr (List.not_mem_nil r)
  | r0 :: rs, h, r, hr => by
    obtain ⟨hbf, hcf, hfl, htk, hne, hrest⟩ := h
    rcases List.mem_cons.mp hr with rfl | hr'
    · refine ⟨hbf, hcf, hfl, fun m hm => ?_, hne⟩
      rw [List.map_cons]
      exact List.mem_cons_of_mem _ (htk m hm)
    · obtain ⟨a, b, c, d, e⟩ := specOK_mem V rs hrest r hr'
      refine ⟨a, b, c, fun m hm => ?_, e⟩
      rw [List.map_cons]
      exact List.mem_cons_of_mem _ (d m hm)

theorem ruleRel_names (Vf : Str → Str) (M : List Str) (rs rs' : List RuleSpec)
    (h : List.Forall₂ (ruleRel Vf M) rs rs') :
    rs'.map RuleSpec.name = rs.map RuleSpec.name := by
  induction h with
  | nil => rfl
  | cons h1 _ ih => rw [List.map_cons, List.map_cons, h1.1, ih]

theorem specOK_append_transfer (V : Str → Str) (M : List Str)
    (ns : List RuleSpec) (hM : ns.map RuleSpec.name = M) (hns : specOK V ns) :
    ∀ (rs rs' : List RuleSpec), specOK V rs →
      List.Forall₂ (ruleRel V M) rs rs' → specOK V (rs' ++ ns)
  | [], rs', _, hfa => by
    rw [List.forall₂_nil_left_iff.mp hfa]
    exact hns
  | r :: rs, rs', hok, hfa => by
    rcases List.forall₂_cons_left_iff.mp hfa with ⟨r', l', hr, hl, rfl⟩
    obtain ⟨hbf, _, hfl, htk, hne, hrest⟩ := hok
    obtain ⟨hname, hchr, hflat, htks⟩ := hr
    rw [List.cons_append]
    refine ⟨?_, hchr, ?_, ?_, ?_, specOK_append_transfer V M ns hM hns rs l' hrest hl⟩
    · rw [hname]
      exact hbf
    · rw [hname, hflat, hfl]
    · intro m hm
      rw [List.map_append, List.mem_append]
      rcases htks m hm with h | h
      · left
        have hmm := htk m h
        rw [← ruleRel_names V M rs l' hl] at hmm
        exact hmm
      · right
        rw [hM]
        exact h
    · rw [hname]
      exact hne

theorem chrsFree_map_chr (v : Str) (hlt : '<' ∉ v) (hgt : '>' ∉ v) :
    chrsFree (v.map GSym.chr) := by
  intro c hc
  obtain ⟨c', hc', he⟩ := List.mem_map.mp hc
  injection he with he
  subst he
  exact ⟨fun h => hlt (h ▸ hc'), fun h => hgt (h ▸ hc')⟩

theorem specOK_chr_rules (V : Str → Str) :
    ∀ ps : Traces,
      (∀ p ∈ ps, bracketFree (lowerStr p.1) ∧ ('<' ∉ p.2 ∧ '>' ∉ p.2) ∧
        V (lowerStr p.1) = p.2 ∧ ruleKey (lowerStr p.1) ≠ START_SYMBOL) →
      specOK V (ps.map fun p => (⟨lowerStr p.1, p.2.map GSym.chr⟩ : RuleSpec))
  | [], _ => True.intro
  | p :: ps, h => by
    obtain ⟨hbf, ⟨hlt, hgt⟩, hV, hne⟩ := h p (List.mem_cons_self p ps)
    rw [List.map_cons]
    refine ⟨hbf, chrsFree_map_chr p.2 hlt hgt, ?_, ?_, hne,
      specOK_chr_rules V ps (fun q hq => h q (List.mem_cons_of_mem _ hq))⟩
    · rw [flatL_map_chr, hV]
    · intro m hm
      rw [toks_map_chr] at hm
      cases hm

theorem rulesToGrammar_append (a b : List RuleSpec) :
    rulesToGrammar (a ++ b) = rulesToGrammar a ++ rulesToGrammar b :=
  List.map_append _ a b

theorem rulesToGrammar_chr :
    ∀ ps : Traces,
      rulesToGrammar (ps.map fun p => (⟨lowerStr p.1, p.2.map GSym.chr⟩ : RuleSpec)) =
        ps.map fun p => (nonterminal p.1, [p.2])
  | [] => rfl
  | p :: ps => by
    rw [List.map_cons, rulesToGrammar_cons, List.map_cons, rulesToGrammar_chr ps,
      reprL_map_chr]
    rfl

theorem ruleKey_inj {a b : Str} (h : ruleKey a = ruleKey b) : a = b := by
  rw [ruleKey, ruleKey] at h
  injection h with _ h2
  exact List.append_cancel_right h2

theorem rulesToGrammar_keys (rs : List RuleSpec) :
    (rulesToGrammar rs).map Prod.fst = rs.map fun r => ruleKey r.name := by
  rw [rulesToGrammar, List.map_map]
  rfl

theorem ggLoop_succ (fuel : Nat) (tr : Traces) (g : Grammar) :
    ggLoop (fuel + 1) tr g =
      if (scanTraces tr g).2.isEmpty then .ok ((scanTraces tr g).1, tr)
      else
        match applyNewRules (scanTraces tr g).2 (scanTraces tr g).1 tr with
        | .error e => .error e
        | .ok (g2, tr2) => ggLoop fuel tr2 g2 := rfl

theorem ggLoop_inv (T : Traces) (S : Str) (hWF : TracesWF T S) :
    ∀ (fuel : Nat) (tr : Traces) (g : Grammar), GInv T S g tr → tr.length < fuel →
      ggLoop fuel tr g = .error .keyError ∨
        ∃ g2 tr2, ggLoop fuel tr g = .ok (g2, tr2) ∧ GInv T S g2 tr2
  | 0, tr, _, _, hf => absurd hf (Nat.not_lt_zero _)
  | fuel + 1, tr, g, hInv, hf => by
    obtain ⟨hSbf, hvals, hnames, hnd, hninf⟩ := hWF
    obtain ⟨s0, rs, procd, hg, hok, hcf, hfl, htk0, hnm, hpT, htr⟩ := hInv
    subst hg
    have htrT : List.Sublist tr T := by
      rw [htr]
      exact List.filter_sublist T
    have htrmem : ∀ p ∈ tr, p ∈ T := fun p hp => htrT.subset hp
    have hN : ∀ m ∈ (T.map fun p => lowerStr p.1), bracketFree m := by
      intro m hm
      obtain ⟨p, hp, rfl⟩ := List.mem_map.mp hm
      exact (hnames p hp).1
    have hobs : ∀ p ∈ tr, p.2 ≠ [] ∧ '<' ∉ p.2 ∧ '>' ∉ p.2 ∧
        lowerStr p.1 ∈ (T.map fun p => lowerStr p.1) ∧ mkV T (lowerStr p.1) = p.2 := by
      intro p hp
      have hpT' := htrmem p hp
      have hbf := (hvals p hpT').2
      exact ⟨(hvals p hpT').1, hbf.1, hbf.2,
        List.mem_map_of_mem _ hpT', mkV_eq T hnd p hpT'⟩
    have hinf : ∀ p ∈ tr, ∀ m ∈ (T.map fun p => lowerStr p.1), ¬ p.2 <:+: m := by
      intro p hp m hm
      obtain ⟨q, hq, rfl⟩ := List.mem_map.mp hm
      exact hninf p (htrmem p hp) q hq
    have hprocdN : ∀ m ∈ procd.map (fun p => lowerStr p.1),
        m ∈ (T.map fun p => lowerStr p.1) := by
      intro m hm
      obtain ⟨q, hq, rfl⟩ := List.mem_map.mp hm
      exact List.mem_map_of_mem _ (hpT q hq)
    have htkN : ∀ m ∈ toks s0, m ∈ (T.map fun p => lowerStr p.1) := by
      intro m hm
      refine hprocdN m ?_
      rw [← hnm]
      exact htk0 m hm
    have hrsN : ∀ r ∈ rs, chrsFree r.sym ∧ ∀ m ∈ toks r.sym,
        m ∈ (T.map fun p => lowerStr p.1) := by
      intro r hr
      obtain ⟨_, hcfr, _, htkr, _⟩ := specOK_mem (mkV T) rs hok r hr
      refine ⟨hcfr, fun m hm => hprocdN m ?_⟩
      rw [← hnm]
      exact htkr m hm
    obtain ⟨s0', rs', cs, hscan, hlen, hcf', hfl', htk', hfa', hsub⟩ :=
      scanTraces_sym (mkV T) (T.map fun p => lowerStr p.1) hN tr s0 rs hobs hinf hcf htkN hrsN
    rw [ggLoop_succ, hscan]
    dsimp only
    by_cases hje : joinReplicate tr cs = []
    · rw [hje, if_pos (List.isEmpty_iff.mpr rfl :
        ([] : List (Str × Str × Str)).isEmpty = true)]
      right
      have hmat := matchedOf_nil_of_join tr cs hje
      rw [hmat, List.map_nil] at htk' hfa'
      have hok' : specOK (mkV T) rs' := by
        have h := specOK_append_transfer (mkV T) [] [] rfl True.intro rs rs' hok hfa'
        rwa [List.append_nil] at h
      refine ⟨_, tr, rfl, s0', rs', procd, rfl, hok', hcf', ?_, ?_, ?_, hpT, htr⟩
      · rw [hfl']
        exact hfl
      · intro m hm
        rw [ruleRel_names (mkV T) [] rs rs' hfa']
        rcases htk' m hm with h | h
        · exact htk0 m h
        · cases h
      · rw [ruleRel_names (mkV T) [] rs rs' hfa']
        exact hnm
    · rw [if_neg (fun hc => hje (List.isEmpty_iff.mp hc))]
      have hndT : (T.map Prod.fst).Nodup := by
        refine List.Nodup.of_map lowerStr ?_
        rw [List.map_map]
        exact hnd
      have hmatT : List.Sublist (matchedOf tr cs) T := hsub.trans htrT
      have hnd1 : ((matchedOf tr cs).map Prod.fst).Nodup :=
        hndT.sublist (hmatT.map Prod.fst)
      have hndl : ((matchedOf tr cs).map fun p => lowerStr p.1).Nodup :=
        hnd.sublist (hmatT.map _)
      have hkeys1 : ∀ p ∈ matchedOf tr cs, p.1 ∈ tr.map Prod.fst :=
        fun p hp => List.mem_map_of_mem _ (hsub.subset hp)
      have hfresh1 : ∀ p ∈ matchedOf tr cs, nonterminal p.1 ∉
          ((START_SYMBOL, [reprL s0']) :: rulesToGrammar rs').map Prod.fst := by
        intro p hp hcmem
        have hpT' := hmatT.subset hp
        rw [List.map_cons, List.mem_cons] at hcmem
        rcases hcmem with hcmem | hcmem
        · exact (hnames p hpT').2 hcmem
        · rw [rulesToGrammar_keys] at hcmem
          obtain ⟨r, hr, hkey⟩ := List.mem_map.mp hcmem
          have hrname : r.name ∈ rs'.map RuleSpec.name := List.mem_map_of_mem _ hr
          rw [ruleRel_names (mkV T) _ rs rs' hfa', hnm] at hrname
          obtain ⟨q, hq, hqname⟩ := List.mem_map.mp hrname
          have hql : lowerStr q.1 = lowerStr p.1 := by
            rw [hqname]
            exact ruleKey_inj hkey
          have hpq : q = p := List.inj_on_of_nodup_map hnd (hpT q hq) hpT' hql
          have hptr : p ∈ tr := hsub.subset hp
          rw [htr] at hptr
          have hpred := List.of_mem_filter hptr
          rw [decide_eq_true_iff] at hpred
          exact hpred (List.mem_map_of_mem Prod.fst (hpq ▸ hq))
      have hndk1 : ((matchedOf tr cs).map fun p => nonterminal p.1).Nodup := by
        have h := hndl.map (fun a b hab => ruleKey_inj hab)
        rw [List.map_map] at h
        exact h
      cases hres : applyNewRules (joinReplicate tr cs)
          ((START_SYMBOL, [reprL s0']) :: rulesToGrammar rs') tr with
      | error e =>
        cases e with
        | keyError => exact Or.inl rfl
        | outOfFuel => exact absurd hres (applyNewRules_no_fuel_err _ _ _)
      | ok res =>
        obtain ⟨g2, tr2⟩ := res
        obtain ⟨hg2, htr2⟩ :=
          applyNewRules_sym tr cs _ tr g2 tr2 hnd1 hkeys1 hfresh1 hndk1 hres
        obtain ⟨e, rest, hjr⟩ := List.exists_cons_of_ne_nil hje
        obtain ⟨var, ntk, value⟩ := e
        rw [hjr] at hres
        have hlt2 : tr2.length < tr.length :=
          applyNewRules_ok_lt var ntk value rest _ tr g2 tr2 hres
        have hfuel2 : tr2.length < fuel := by omega
        have hInv2 : GInv T S g2 tr2 := by
          refine ⟨s0', rs' ++ (matchedOf tr cs).map
              (fun p => (⟨lowerStr p.1, p.2.map GSym.chr⟩ : RuleSpec)),
            procd ++ matchedOf tr cs, ?_, ?_, hcf', ?_, ?_, ?_, ?_, ?_⟩
          · rw [hg2, rulesToGrammar_append, rulesToGrammar_chr, List.cons_append]
          · refine specOK_append_transfer (mkV T)
              ((matchedOf tr cs).map fun p => lowerStr p.1) _ ?_ ?_ rs rs' hok hfa'
            · rw [List.map_map]
              rfl
            · refine specOK_chr_rules (mkV T) _ ?_
              intro p hp
              have hpT' := hmatT.subset hp
              have hbf2 := (hvals p hpT').2
              exact ⟨(hnames p hpT').1, ⟨hbf2.1, hbf2.2⟩, mkV_eq T hnd p hpT',
                (hnames p hpT').2⟩
          · rw [hfl']
            exact hfl
          · intro m hm
            rw [List.map_append, List.mem_append]
            rcases htk' m hm with h | h
            · left
              rw [ruleRel_names (mkV T) _ rs rs' hfa']
              exact htk0 m h
            · right
              rw [List.map_map]
              exact h
          · rw [List.map_append, List.map_append,
              ruleRel_names (mkV T) _ rs rs' hfa', hnm, List.map_map]
            rfl
          · intro p hp
            rcases List.mem_append.mp hp with h | h
            · exact hpT p h
            · exact hmatT.subset h
          · rw [htr2, htr, filter_keys_append, List.map_append]
        exact ggLoop_inv T S ⟨hSbf, hvals, hnames, hnd, hninf⟩ fuel tr2 g2 hInv2 hfuel2

theorem get_grammar_inv (T : Traces) (S : Str) (hWF : TracesWF T S) :
    get_grammar T S = .error .keyError ∨
      ∃ g tr, get_grammar T S = .ok (g, tr) ∧ GInv T S g tr := by
  have hInv0 : GInv T S [(START_SYMBOL, [S])] T := by
    refine ⟨S.map GSym.chr, [], [], ?_, True.intro,
      chrsFree_map_chr S hWF.1.1 hWF.1.2, flatL_map_chr (mkV T) S, ?_, rfl, ?_, ?_⟩
    · rw [reprL_map_chr]
      rfl
    · intro m hm
      rw [toks_map_chr] at hm
      cases hm
    · intro p hp
      cases hp
    · simp
  exact ggLoop_inv T S hWF (T.length + 1) T [(START_SYMBOL, [S])] hInv0 (Nat.lt_succ_self _)

theorem get_grammar_ok_inv (T : Traces) (S : Str) (hWF : TracesWF T S) (g : Grammar)
    (tr : Traces) (hok : get_grammar T S = .ok (g, tr)) : GInv T S g tr := by
  rcases get_grammar_inv T S hWF with h | ⟨g2, tr2, h, hInv⟩
  · rw [h] at hok
    exact absurd hok (fun hc => Except.noConfusion hc)
  · rw [h] at hok
    injection hok with h2
    injection h2 with hg ht
    rw [← hg, ← ht]
    exact hInv

theorem TracesWF_sublist (T : Traces) (S : Str) (tr : Traces) (hWF : TracesWF T S)
    (hsub : List.Sublist tr T) : TracesWF tr S := by
  obtain ⟨h1, h2, h3, h4, h5⟩ := hWF
  exact ⟨h1, fun p hp => h2 p (hsub.subset hp), fun p hp => h3 p (hsub.subset hp),
    h4.sublist (hsub.map _), fun p hp q hq => h5 p (hsub.subset hp) q (hsub.subset hq)⟩

theorem GInv_keys (T : Traces) (S : Str) (g : Grammar) (tr : Traces)
    (h : GInv T S g tr) :
    ∃ procd : Traces, (∀ p ∈ procd, p ∈ T) ∧
      tr = T.filter (fun p => decide (p.1 ∉ procd.map Prod.fst)) ∧
      g.map Prod.fst = START_SYMBOL :: procd.map (fun p => nonterminal p.1) := by
  obtain ⟨s0, rs, procd, hg, _, _, _, _, hnm, hpT, htr⟩ := h
  refine ⟨procd, hpT, htr, ?_⟩
  have h2 : (rs.map RuleSpec.name).map ruleKey =
      (procd.map fun p => lowerStr p.1).map ruleKey := by rw [hnm]
  rw [List.map_map, List.map_map] at h2
  rw [hg, List.map_cons, rulesToGrammar_keys,
    show (rs.map fun r => ruleKey r.name) = procd.map (fun p => nonterminal p.1) from h2]

theorem ntk_mem_iff (T procd : Traces) (hnd : (T.map fun p => lowerStr p.1).Nodup)
    (hpT : ∀ p ∈ procd, p ∈ T) (p : Str × Str) (hp : p ∈ T) :
    nonterminal p.1 ∈ procd.map (fun q => nonterminal q.1) ↔ p.1 ∈ procd.map Prod.fst := by
  constructor
  · intro h
    obtain ⟨q, hq, hqe⟩ := List.mem_map.mp h
    have hlq : lowerStr q.1 = lowerStr p.1 := ruleKey_inj hqe
    have hqp : q = p := List.inj_on_of_nodup_map hnd (hpT q hq) hp hlq
    exact hqp ▸ List.mem_map_of_mem Prod.fst hq
  · intro h
    obtain ⟨q, hq, hqe⟩ := List.mem_map.mp h
    have hqp : nonterminal q.1 = nonterminal p.1 := by
      rw [nonterminal, nonterminal, hqe]
    exact hqp ▸ List.mem_map_of_mem (fun q => nonterminal q.1) hq

theorem tr_filter_iff (T procd : Traces) (p : Str × Str) (hp : p ∈ T) :
    p ∈ T.filter (fun q => decide (q.1 ∉ procd.map Prod.fst)) ↔
      p.1 ∉ procd.map Prod.fst := by
  rw [List.mem_filter, decide_eq_true_iff]
  exact ⟨fun h => h.2, fun h => ⟨hp, h⟩⟩

/-- C1: the claim as written is false.  On the sample `<qq>abc` with the single
observation `qq = abc`, `get_grammar` replaces `abc` both in the sample and in
the freshly written start alternative's text, producing the start alternative
`<qq><qq>` whose full expansion is `abcabc`, not the sample. -/
theorem expansion_mismatch_counterexample :
    ∃ g tr a, get_grammar [(['q', 'q'], ['a', 'b', 'c'])] ['<', 'q', 'q', '>', 'a', 'b', 'c'] =
        .ok (g, tr) ∧ pyGet g START_SYMBOL = [a] ∧
      expandGrammar g a ≠ ['<', 'q', 'q', '>', 'a', 'b', 'c'] :=
  ⟨[(START_SYMBOL, [['<', 'q', 'q', '>', '<', 'q', 'q', '>']]),
      (['<', 'q', 'q', '>'], [['a', 'b', 'c']])], [],
    ['<', 'q', 'q', '>', '<', 'q', 'q', '>'], by decide, by decide, by decide⟩

/-- C1 (amended): if the sample and the traced values are bracket-free, the
lowercased variable names are bracket-free, pairwise distinct, distinct from
the start symbol and contain no traced value, and `get_grammar` returns
without raising, then the returned grammar binds the start symbol to a single
alternative whose full expansion (replacing each nonterminal reference by its
sole defining alternative, in rule order) is exactly the sample. -/
theorem get_grammar_reconstructs (T : Traces) (S : Str) (hWF : TracesWF T S)
    (g : Grammar) (tr : Traces) (hok : get_grammar T S = .ok (g, tr)) :
    ∃ a rest, g = (START_SYMBOL, [a]) :: rest ∧ expandGrammar g a = S := by
  obtain ⟨s0, rs, procd, hg, hok2, hcf, hfl, htk, _, _, _⟩ :=
    get_grammar_ok_inv T S hWF g tr hok
  refine ⟨reprL s0, rulesToGrammar rs, hg, ?_⟩
  rw [hg, expandGrammar, List.foldl_cons]
  dsimp only
  rw [if_pos rfl, expand_fold (mkV T) rs s0 hok2 hcf htk]
  exact hfl

theorem get_grammar_reconstructs_witness :
    ∃ a rest,
      ([(START_SYMBOL, [['<', 'x', '>', ':', 'c', 'd']]), (['<', 'x', '>'], [['a', 'b']])] :
        Grammar) = (START_SYMBOL, [a]) :: rest ∧
      expandGrammar
        [(START_SYMBOL, [['<', 'x', '>', ':', 'c', 'd']]), (['<', 'x', '>'], [['a', 'b']])]
        a = ['a', 'b', ':', 'c', 'd'] :=
  get_grammar_reconstructs [(['x'], ['a', 'b'])] ['a', 'b', ':', 'c', 'd'] (by decide)
    [(START_SYMBOL, [['<', 'x', '>', ':', 'c', 'd']]), (['<', 'x', '>'], [['a', 'b']])] []
    (by decide)

/-- C2: the claim as written is false: the procedure does not return a grammar
for every finite observation map.  On the sample `XabQabY` with observations
`u = Xab`, `w = abY`, `v = ab` (all well-formed), the value `ab` matches two
alternatives in one pass, `new_rules` holds two entries for `v`, and the
second `del traces[v]` raises `KeyError`. -/
theorem get_grammar_keyerror_counterexample :
    get_grammar [(['u'], ['X', 'a', 'b']), (['w'], ['a', 'b', 'Y']), (['v'], ['a', 'b'])]
        ['X', 'a', 'b', 'Q', 'a', 'b', 'Y'] = .error .keyError ∧
      TracesWF [(['u'], ['X', 'a', 'b']), (['w'], ['a', 'b', 'Y']), (['v'], ['a', 'b'])]
        ['X', 'a', 'b', 'Q', 'a', 'b', 'Y'] :=
  ⟨by decide, by decide⟩

/-- C2 (amended): on well-formed observations the loop always terminates:
either a `KeyError` is raised (a value matching two alternatives in one pass),
or it returns a grammar that maps the start symbol followed by exactly one
nonterminal per processed observation, every entry carrying a single
alternative, and the remaining trace dictionary holds exactly the observations
never processed (so none is expanded twice). -/
theorem get_grammar_terminating_structure (T : Traces) (S : Str) (hWF : TracesWF T S) :
    get_grammar T S = .error .keyError ∨
      ∃ g tr, ∃ procd : Traces, get_grammar T S = .ok (g, tr) ∧
        (∀ p ∈ procd, p ∈ T) ∧
        tr = T.filter (fun p => decide (p.1 ∉ procd.map Prod.fst)) ∧
        g.map Prod.fst = START_SYMBOL :: procd.map (fun p => nonterminal p.1) ∧
        (∀ e ∈ g, ∃ a, e.2 = [a]) := by
  rcases get_grammar_inv T S hWF with h | ⟨g, tr, h, hInv⟩
  · exact Or.inl h
  · right
    obtain ⟨procd, hpT, htr, hkeys⟩ := GInv_keys T S g tr hInv
    refine ⟨g, tr, procd, h, hpT, htr, hkeys, ?_⟩
    obtain ⟨s0, rs, _, hg, _, _, _, _, _, _, _⟩ := hInv
    intro e he
    rw [hg] at he
    rcases List.mem_cons.mp he with rfl | he'
    · exact ⟨reprL s0, rfl⟩
    · obtain ⟨r, _, hre⟩ := List.mem_map.mp he'
      exact ⟨reprL r.sym, by rw [← hre]⟩

theorem get_grammar_terminating_structure_witness :
    get_grammar [(['x'], ['a', 'b'])] ['a', 'b', ':', 'c', 'd'] = .error .keyError ∨
      ∃ g tr, ∃ procd : Traces, get_grammar [(['x'], ['a', 'b'])] ['a', 'b', ':', 'c', 'd'] =
          .ok (g, tr) ∧
        (∀ p ∈ procd, p ∈ [(['x'], ['a', 'b'])]) ∧
        tr = [((['x'] : Str), (['a', 'b'] : Str))].filter
          (fun p => decide (p.1 ∉ procd.map Prod.fst)) ∧
        g.map Prod.fst = START_SYMBOL :: procd.map (fun p => nonterminal p.1) ∧
        (∀ e ∈ g, ∃ a, e.2 = [a]) :=
  get_grammar_terminating_structure [(['x'], ['a', 'b'])] ['a', 'b', ':', 'c', 'd'] (by decide)

/-- C8: for a well-formed trace and a successful run, an observation stays in
the trace dictionary exactly when the synthesizer added no rule for its
nonterminal, and such a dropped observation's nonterminal occurs nowhere in
the grammar -- neither as a key nor inside any alternative -- so nothing
derived from it is reachable from the start symbol; no error is raised for
it. -/
theorem unmatched_observation_dropped (T : Traces) (S : Str) (hWF : TracesWF T S)
    (g : Grammar) (tr : Traces) (hok : get_grammar T S = .ok (g, tr)) :
    ∀ p ∈ T, (p ∈ tr ↔ nonterminal p.1 ∉ g.map Prod.fst) ∧
      (p ∈ tr → ∀ e ∈ g, ∀ a ∈ e.2, ¬ nonterminal p.1 <:+: a) := by
  have hInv := get_grammar_ok_inv T S hWF g tr hok
  obtain ⟨procd, hpT, htr, hkeys⟩ := GInv_keys T S g tr hInv
  obtain ⟨hSbf, hvals, hnames, hnd, hninf⟩ := hWF
  intro p hp
  have hiff : p ∈ tr ↔ p.1 ∉ procd.map Prod.fst := by
    rw [htr]
    exact tr_filter_iff T procd p hp
  have hiff2 := ntk_mem_iff T procd hnd hpT p hp
  constructor
  · constructor
    · intro hptr hmem
      rw [hkeys, List.mem_cons] at hmem
      rcases hmem with hmem | hmem
      · exact (hnames p hp).2 hmem
      · exact (hiff.mp hptr) (hiff2.mp hmem)
    · intro hmem
      refine hiff.mpr (fun hc => hmem ?_)
      rw [hkeys, List.mem_cons]
      exact Or.inr (hiff2.mpr hc)
  · intro hptr e he a ha hinf
    obtain ⟨s0, rs, procd2, hg, hok2, hcf, hfl, htk, hnm, hpT2, htr2⟩ := hInv
    have hnp : lowerStr p.1 ∉ rs.map RuleSpec.name := by
      intro hc
      rw [hnm] at hc
      obtain ⟨q, hq, hqe⟩ := List.mem_map.mp hc
      have hqp : q = p := List.inj_on_of_nodup_map hnd (hpT2 q hq) hp hqe
      have hnin := (tr_filter_iff T procd2 p hp).mp (htr2 ▸ hptr)
      exact hnin (hqp ▸ List.mem_map_of_mem Prod.fst hq)
    have key : ∀ l : List GSym, chrsFree l → (∀ m ∈ toks l, m ∈ rs.map RuleSpec.name) →
        a = reprL l → False := by
      intro l hlcf hltk hal
      subst hal
      have hcontains : containsSub ('<' :: (lowerStr p.1 ++ ['>'])) (reprL l) = true :=
        (containsSub_iff _ _).mpr hinf
      have hmem := token_infix_toks (lowerStr p.1) (hnames p hp).1 l hlcf
        (fun m hm => specOK_names_bracketFree (mkV T) rs hok2 m (hltk m hm)) hcontains
      exact hnp (hltk _ hmem)
    rw [hg, List.mem_cons] at he
    rcases he with rfl | he'
    · obtain rfl := List.mem_singleton.mp ha
      exact key s0 hcf htk rfl
    · obtain ⟨r, hr, hre⟩ := List.mem_map.mp he'
      rw [← hre] at ha
      obtain rfl := List.mem_singleton.mp ha
      exact key r.sym (specOK_mem (mkV T) rs hok2 r hr).2.1
        (specOK_mem (mkV T) rs hok2 r hr).2.2.2.1 rfl

theorem unmatched_observation_dropped_witness :
    (((['z'] : Str), (['q', 'q'] : Str)) ∈ [((['z'] : Str), (['q', 'q'] : Str))] ↔
      nonterminal ['z'] ∉ ([(START_SYMBOL, [['a', 'b']])] : Grammar).map Prod.fst) ∧
    (((['z'] : Str), (['q', 'q'] : Str)) ∈ [((['z'] : Str), (['q', 'q'] : Str))] →
      ∀ e ∈ ([(START_SYMBOL, [['a', 'b']])] : Grammar), ∀ a ∈ e.2,
        ¬ nonterminal ['z'] <:+: a) :=
  unmatched_observation_dropped [(['z'], ['q', 'q'])] ['a', 'b'] (by decide)
    [(START_SYMBOL, [['a', 'b']])] [(['z'], ['q', 'q'])] (by decide)
    (['z'], ['q', 'q']) (by decide)

/-- C10: on a successful run over a well-formed trace, the trace dictionary
handed back (the mutated `tracer.the_values`) is a sub-dictionary of the
original holding exactly the dropped observations: every deleted observation
contributed a rule, every remaining one did not, and a second `get_grammar`
run on the mutated dictionary cannot reproduce any non-start rule of the
first run's grammar. -/
theorem get_grammar_mutates_traces (T : Traces) (S : Str) (hWF : TracesWF T S)
    (g : Grammar) (tr : Traces) (hok : get_grammar T S = .ok (g, tr)) :
    List.Sublist tr T ∧
    (∀ p ∈ T, p ∉ tr → nonterminal p.1 ∈ g.map Prod.fst) ∧
    (∀ p ∈ tr, nonterminal p.1 ∉ g.map Prod.fst) ∧
    (∀ g' tr', get_grammar tr S = .ok (g', tr') →
      ∀ k ∈ g'.map Prod.fst, k ≠ START_SYMBOL → k ∉ g.map Prod.fst) := by
  have hInv := get_grammar_ok_inv T S hWF g tr hok
  obtain ⟨procd, hpT, htr, hkeys⟩ := GInv_keys T S g tr hInv
  obtain ⟨hSbf, hvals, hnames, hnd, hninf⟩ := hWF
  have htrT : List.Sublist tr T := by
    rw [htr]
    exact List.filter_sublist T
  refine ⟨htrT, ?_, ?_, ?_⟩
  · intro p hp hptr
    have h1 : p.1 ∈ procd.map Prod.fst := by
      by_contra hc
      refine hptr ?_
      rw [htr]
      exact (tr_filter_iff T procd p hp).mpr hc
    rw [hkeys, List.mem_cons]
    exact Or.inr ((ntk_mem_iff T procd hnd hpT p hp).mpr h1)
  · intro p hptr hmem
    have hpT' : p ∈ T := htrT.subset hptr
    rw [hkeys, List.mem_cons] at hmem
    rcases hmem with hmem | hmem
    · exact (hnames p hpT').2 hmem
    · have h1 := (ntk_mem_iff T procd hnd hpT p hpT').mp hmem
      have h2 : p.1 ∉ procd.map Prod.fst := (tr_filter_iff T procd p hpT').mp (htr ▸ hptr)
      exact h2 h1
  · intro g' tr' hok' k hk hkS
    have hWF' : TracesWF tr S :=
      TracesWF_sublist T S tr ⟨hSbf, hvals, hnames, hnd, hninf⟩ htrT
    have hInv' := get_grammar_ok_inv tr S hWF' g' tr' hok'
    obtain ⟨procd', hpT', _, hkeys'⟩ := GInv_keys tr S g' tr' hInv'
    rw [hkeys', List.mem_cons] at hk
    rcases hk with rfl | hk
    · exact absurd rfl hkS
    · obtain ⟨q', hq', hq'e⟩ := List.mem_map.mp hk
      intro hmem
      rw [hkeys, List.mem_cons] at hmem
      rcases hmem with hmem | hmem
      · exact hkS hmem
      · obtain ⟨q, hq, hqe⟩ := List.mem_map.mp hmem
        have hq'T : q' ∈ T := htrT.subset (hpT' q' hq')
        have hl : lowerStr q.1 = lowerStr q'.1 := ruleKey_inj (by
          show nonterminal q.1 = nonterminal q'.1
          rw [hqe, hq'e])
        have hqq : q = q' := List.inj_on_of_nodup_map hnd (hpT q hq) hq'T hl
        have h3 : q'.1 ∉ procd.map Prod.fst :=
          (tr_filter_iff T procd q' hq'T).mp (htr ▸ hpT' q' hq')
        exact h3 (hqq ▸ List.mem_map_of_mem Prod.fst hq)

theorem get_grammar_mutates_traces_witness :
    List.Sublist ([] : Traces) [(['x'], ['a', 'b'])] ∧
    (∀ p ∈ [((['x'] : Str), (['a', 'b'] : Str))], p ∉ ([] : Traces) →
      nonterminal p.1 ∈ ([(START_SYMBOL, [['<', 'x', '>', ':', 'c', 'd']]),
        (['<', 'x', '>'], [['a', 'b']])] : Grammar).map Prod.fst) ∧
    (∀ p ∈ ([] : Traces), nonterminal p.1 ∉
      ([(START_SYMBOL, [['<', 'x', '>', ':', 'c', 'd']]),
        (['<', 'x', '>'], [['a', 'b']])] : Grammar).map Prod.fst) ∧
    (∀ g' tr', get_grammar ([] : Traces) ['a', 'b', ':', 'c', 'd'] = .ok (g', tr') →
      ∀ k ∈ g'.map Prod.fst, k ≠ START_SYMBOL →
        k ∉ ([(START_SYMBOL, [['<', 'x', '>', ':', 'c', 'd']]),
          (['<', 'x', '>'], [['a', 'b']])] : Grammar).map Prod.fst) :=
  get_grammar_mutates_traces [(['x'], ['a', 'b'])] ['a', 'b', ':', 'c', 'd'] (by decide)
    [(START_SYMBOL, [['<', 'x', '>', ':', 'c', 'd']]), (['<', 'x', '>'], [['a', 'b']])] []
    (by decide)

end GrammarMiner
